import Mathlib

/-!
Verification of the agentflow goal-execution scheduler.

Shallow embedding of the core of the repository:
`src/checklist.ts` (the `Checklist` task graph), `src/orchestrator.ts`
(the `AIAgentOrchestrator` executor and main loop) and the
`AnthropicLLM` client from `src/llm.ts`.

Modelling conventions:
* JavaScript numbers carrying confidences, priorities and thresholds are
  modelled as rationals (`ℚ`); iteration counters and `maxIterations`
  as naturals.
* JavaScript falsiness in `x || d` defaults is modelled explicitly:
  for numbers `0` is falsy, for strings `""` is falsy, `undefined` is
  `Option.none`.
* `Date.now()` values are passed in as explicit `Nat` parameters.
* Asynchronous calls to the Reasoning Oracle and to tools are modelled
  as explicit environment parameters (their outcomes); a thrown
  exception from a tool call is an `Except.error`.
-/

namespace AgentFlow

/-- Task status enum of `src/types.ts`:
`'pending' | 'in_progress' | 'completed' | 'failed'`. -/
inductive Status where
  | pending
  | in_progress
  | completed
  | failed
deriving DecidableEq, Repr

/-- A terminal status: `completed` or `failed`. -/
def Status.isTerminal (s : Status) : Bool :=
  s == Status.completed || s == Status.failed

/-- The opaque JSON payload a tool returns; the orchestrator only ever
reads its optional `confidence` field (`result.confidence || 1`). -/
structure ToolOutput where
  confidence : Option ℚ
deriving DecidableEq, Repr

/-- The `ToolResult` of `src/types.ts`. -/
structure ToolResult where
  success : Bool
  tool : String
  output : Option ToolOutput
  duration : Nat
  confidence : ℚ
  error : Option String
deriving DecidableEq, Repr

/-- The `TaskResult` of `src/types.ts`. -/
structure TaskResult where
  success : Bool
  confidence : ℚ
  iterations : Nat
  results : List ToolResult
  duration : Option Nat
  error : Option String
deriving DecidableEq, Repr

/-- The `Task` of `src/types.ts`.  `dependencies` and `maxIterations` are
optional fields there (`dependencies?: string[]`, `maxIterations?: number`). -/
structure Task where
  id : String
  name : String
  description : String
  priority : ℚ
  dependencies : Option (List String)
  successThreshold : ℚ
  estimatedComplexity : ℚ
  requiresIterativeExecution : Bool
  maxIterations : Option Nat
  requiredCapabilities : List String
  status : Status
  result : Option TaskResult
  completedAt : Option Nat
deriving DecidableEq, Repr

/-- The `GoalDefinition` of `src/types.ts`; opaque context for Oracle calls. -/
structure GoalDefinition where
  originalGoal : String
  successCriteria : List String
  constraints : List String
  expectedOutcomes : List String
  challenges : List String
deriving DecidableEq, Repr

/-- JavaScript `x || d` for an optional number: `undefined` and `0` are falsy. -/
def numOr (x : Option ℚ) (d : ℚ) : ℚ :=
  match x with
  | none => d
  | some v => if v = 0 then d else v

/-- JavaScript `x || d` for a number that is always present: `0` is falsy. -/
def qOr (x d : ℚ) : ℚ :=
  if x = 0 then d else x

/-- JavaScript `x || d` for an optional natural count: `undefined` and `0` are falsy. -/
def natOr (x : Option Nat) (d : Nat) : Nat :=
  match x with
  | none => d
  | some v => if v = 0 then d else v

/-- JavaScript `x || d` for an optional string: `undefined` and `""` are falsy. -/
def strOr (x : Option String) (d : String) : String :=
  match x with
  | none => d
  | some s => if s = "" then d else s

/-- The backing store of the `Checklist`: a JavaScript `Map<string, Task>`
modelled as an insertion-ordered association list. -/
abbrev TaskMap := List (String × Task)

/-- The `Map.get`: the first entry with the given key. -/
def mapGet (m : TaskMap) (k : String) : Option Task :=
  match m.find? (fun p => p.1 == k) with
  | some p => some p.2
  | none => none

/-- The `Map.set`: replace the value at an existing key in place, otherwise
append a new entry (JavaScript `Map` insertion-order semantics). -/
def mapSet (m : TaskMap) (k : String) (v : Task) : TaskMap :=
  if m.any (fun p => p.1 == k) then
    m.map (fun p => if p.1 == k then (k, v) else p)
  else
    m ++ [(k, v)]

/-- The `Checklist` class of `src/checklist.ts`. -/
structure Checklist where
  tasks : TaskMap
  goalDefinition : GoalDefinition
deriving DecidableEq, Repr

/-- The `Checklist` constructor:
`new Map(tasks.map(t => [t.id, { ...t, status: 'pending' }]))`. -/
def Checklist.init (tasks : List Task) (gd : GoalDefinition) : Checklist :=
  { tasks := tasks.foldl (fun m t => mapSet m t.id { t with status := Status.pending }) []
    goalDefinition := gd }

/-- The `Checklist.getTask`. -/
def Checklist.getTask (cl : Checklist) (taskId : String) : Option Task :=
  mapGet cl.tasks taskId

/-- The `Checklist.updateTaskStatus`: on a known id, set the status from the
result's success flag, store the result and stamp `Date.now()`. -/
def Checklist.updateTaskStatus (cl : Checklist) (taskId : String) (result : TaskResult)
    (now : Nat) : Checklist :=
  match mapGet cl.tasks taskId with
  | none => cl
  | some task =>
      let updated : Task :=
        { task with
          status := if result.success then Status.completed else Status.failed
          result := some result
          completedAt := some now }
      { cl with tasks := mapSet cl.tasks taskId updated }

/-- The `Checklist.setTaskInProgress`: sets the status of any existing task
to `in_progress` (no check of the current status). -/
def Checklist.setTaskInProgress (cl : Checklist) (taskId : String) : Checklist :=
  match mapGet cl.tasks taskId with
  | none => cl
  | some task =>
      { cl with tasks := mapSet cl.tasks taskId ({ task with status := Status.in_progress }) }

/-- The dependency check inside `getAvailableTasks`: with no
`dependencies` field or an empty list the task passes; otherwise every
dependency id must resolve to a task with status `completed`. -/
def depsSatisfiedB (cl : Checklist) (t : Task) : Bool :=
  match t.dependencies with
  | none => true
  | some ds => ds.all (fun d =>
      match mapGet cl.tasks d with
      | some dep => dep.status == Status.completed
      | none => false)

/-- The `Checklist.getAvailableTasks`: the pending tasks whose dependencies
are all completed, in map insertion order. -/
def Checklist.getAvailableTasks (cl : Checklist) : List Task :=
  (cl.tasks.map (fun p => p.2)).filter
    (fun t => t.status == Status.pending && depsSatisfiedB cl t)

/-- A task with no dependency entry or an empty dependency list. -/
def depsEmptyB (t : Task) : Bool :=
  match t.dependencies with
  | none => true
  | some ds => ds.isEmpty

/- ### Sample data used by witnesses and counterexamples -/

/-- A sample goal definition. -/
def sampleGoal : GoalDefinition :=
  { originalGoal := "g", successCriteria := [], constraints := []
    expectedOutcomes := [], challenges := [] }

/-- A sample task arriving from the Oracle already carrying a
(non-pending) status, to exercise the constructor's status reset. -/
def sampleTask0 : Task :=
  { id := "a", name := "A", description := "", priority := 5
    dependencies := none, successThreshold := (8 : ℚ) / 10
    estimatedComplexity := 5, requiresIterativeExecution := false
    maxIterations := some 10, requiredCapabilities := []
    status := Status.completed, result := none, completedAt := none }

/-- The `sampleTask0` as the constructor stores it: status reset to `pending`. -/
def samplePending : Task :=
  { sampleTask0 with status := Status.pending }

/-- A successful `TaskResult` used to drive `updateTaskStatus`. -/
def sampleSuccess : TaskResult :=
  { success := true, confidence := 1, iterations := 1, results := []
    duration := none, error := none }

/- ### Basic map lemmas -/

theorem mem_mapSet {m : TaskMap} {k : String} {v : Task} {p : String × Task}
    (hp : p ∈ mapSet m k v) : p ∈ m ∨ p = (k, v) := by
  unfold mapSet at hp
  by_cases h : m.any (fun p => p.1 == k)
  · simp only [h, if_true, List.mem_map] at hp
    obtain ⟨q, hq, hqe⟩ := hp
    by_cases hk : q.1 == k
    · simp only [hk, if_true] at hqe
      exact Or.inr hqe.symm
    · simp only [hk, Bool.false_eq_true, if_false] at hqe
      exact Or.inl (hqe ▸ hq)
  · simp only [h, Bool.false_eq_true, if_false, List.mem_append, List.mem_singleton] at hp
    exact hp

/-- Statuses in a constructed checklist: the fold that builds the map
only ever inserts `pending` tasks. -/
theorem init_status_pending (tasks : List Task) (gd : GoalDefinition) :
    ∀ p ∈ (Checklist.init tasks gd).tasks, p.2.status = Status.pending := by
  have key : ∀ (ts : List Task) (m : TaskMap),
      (∀ p ∈ m, p.2.status = Status.pending) →
      ∀ p ∈ ts.foldl (fun m t => mapSet m t.id { t with status := Status.pending }) m,
        p.2.status = Status.pending := by
    intro ts
    induction ts with
    | nil => intro m hm p hp; exact hm p hp
    | cons t rest ih =>
        intro m hm p hp
        refine ih _ ?_ p hp
        intro q hq
        rcases mem_mapSet hq with h | h
        · exact hm q h
        · rw [h]
  intro p hp
  exact key tasks [] (by intro q hq; cases hq) p hp

/-- After construction every task is pending, so a dependency can only be
"completed" vacuously: availability reduces to having no dependencies. -/
theorem init_available_iff_no_deps (tasks : List Task) (gd : GoalDefinition) :
    (Checklist.init tasks gd).getAvailableTasks
      = ((Checklist.init tasks gd).tasks.map (fun p => p.2)).filter depsEmptyB := by
  unfold Checklist.getAvailableTasks
  apply List.filter_congr
  intro t ht
  obtain ⟨p, hp, hpt⟩ := List.mem_map.mp ht
  have hpend : t.status = Status.pending := by
    rw [← hpt]; exact init_status_pending tasks gd p hp
  have hps : (t.status == Status.pending) = true := by simp [hpend]
  rw [hps, Bool.true_and]
  unfold depsSatisfiedB depsEmptyB
  cases hdep : t.dependencies with
  | none => rfl
  | some ds =>
      cases ds with
      | nil => simp
      | cons d rest =>
          simp only [List.isEmpty_cons]
          rw [List.all_eq_false.mpr]
          refine ⟨d, List.mem_cons_self d rest, ?_⟩
          cases hget : mapGet (Checklist.init tasks gd).tasks d with
          | none => simp
          | some dep =>
              have : dep.status = Status.pending := by
                unfold mapGet at hget
                cases hfind : (Checklist.init tasks gd).tasks.find?
                    (fun p => p.1 == d) with
                | none => rw [hfind] at hget; cases hget
                | some q =>
                    rw [hfind] at hget
                    have hq := List.find?_mem hfind
                    have := init_status_pending tasks gd q hq
                    cases hget
                    exact this
              simp [this]

/-- C10: the `Checklist` constructor stores every Oracle-produced task
with status `pending`, overwriting any input status; consequently a task
is available immediately after construction exactly when its dependency
list is absent or empty. -/
theorem constructor_resets_status (tasks : List Task) (gd : GoalDefinition) :
    (∀ p ∈ (Checklist.init tasks gd).tasks, p.2.status = Status.pending) ∧
    (Checklist.init tasks gd).getAvailableTasks
      = ((Checklist.init tasks gd).tasks.map (fun p => p.2)).filter depsEmptyB :=
  ⟨init_status_pending tasks gd, init_available_iff_no_deps tasks gd⟩

/-- C10 witness: `sampleTask0` enters the constructor with status
`completed` and is stored with status `pending`. -/
theorem constructor_resets_status_witness :
    ("a", samplePending) ∈ (Checklist.init [sampleTask0] sampleGoal).tasks ∧
    samplePending.status = Status.pending :=
  ⟨by simp [Checklist.init, mapSet, samplePending, sampleTask0],
    (constructor_resets_status [sampleTask0] sampleGoal).1
      ("a", samplePending) (by simp [Checklist.init, mapSet, samplePending, sampleTask0])⟩

/- ### Task Executor (`AIAgentOrchestrator` of `src/orchestrator.ts`) -/

/-- The `AIAgentOrchestrator.callTool`.  The whole try-block — Oracle input
generation plus `tool.execute` — is modelled by its outcome: `Except.ok`
carries the tool's JSON output and the measured wall time, `Except.error`
a thrown failure's message.  On success the `ToolResult` confidence is
`result.confidence || 1`; a thrown failure is converted into a failed,
zero-confidence `ToolResult` carrying the message. -/
def callTool (toolName : String) (exec : Except String ToolOutput) (duration : Nat) :
    ToolResult :=
  match exec with
  | Except.ok out =>
      { success := true, tool := toolName, output := some out, duration := duration
        confidence := numOr out.confidence 1, error := none }
  | Except.error msg =>
      { success := false, tool := toolName, output := none, duration := 0
        confidence := 0, error := some msg }

/-- The `AIAgentOrchestrator.executeSingleTask`: with no resolved tool, the
fixed failure result; otherwise one call of the first tool, success
copied from the call, confidence `result.confidence || 1`. -/
def executeSingleTask (tools : List String) (firstCall : Except String ToolOutput)
    (duration : Nat) : TaskResult :=
  match tools with
  | [] =>
      { success := false, confidence := 0, iterations := 1, results := []
        duration := none, error := some "No suitable tools found for this task" }
  | t :: _ =>
      let result := callTool t firstCall duration
      { success := result.success, confidence := qOr result.confidence 1
        iterations := 1, results := [result], duration := none, error := none }

/-- The `AIAgentOrchestrator.evaluateProgress`: forwards the Oracle's
`evaluate` confidence to the task loop unchanged. -/
def evaluateProgress (oracleConfidence : ℚ) : ℚ :=
  oracleConfidence

/-- The `AnthropicLLM.evaluate` from `src/llm.ts`.  The argument is the
parsed response: `none` when the response failed to parse (yielding
confidence 0), otherwise the optional `confidence` field of the parsed
JSON.  The field is defaulted with `result.confidence || 0` and clamped
by `Math.max(0, Math.min(1, …))`. -/
def anthropicEvaluate (response : Option (Option ℚ)) : ℚ :=
  match response with
  | none => 0
  | some c => max 0 (min 1 (c.getD 0))

/-- One inner-loop step's environment in `executeIterativeTask`: the
outcome of the tool call, its wall time, and the confidence the Oracle's
`evaluate` reports for the accumulated results afterwards. -/
structure IterCall where
  callOutcome : Except String ToolOutput
  callDuration : Nat
  evalConfidence : ℚ
deriving Repr

/-- Placeholder consumed if the environment list is exhausted (never
reached for environments as long as the number of calls made). -/
def defaultIterCall : IterCall :=
  { callOutcome := Except.error "", callDuration := 0, evalConfidence := 0 }

/-- The inner `for (const tool of tools)` loop of
`executeIterativeTask`: call each tool in order, append its result,
re-evaluate the cumulative confidence, and break as soon as it reaches
the threshold.  Returns the accumulated results, the last confidence and
the unconsumed environment. -/
def runInner (threshold : ℚ) (tools : List String) (results : List ToolResult)
    (confidence : ℚ) (env : List IterCall) :
    List ToolResult × ℚ × List IterCall :=
  match tools with
  | [] => (results, confidence, env)
  | t :: rest =>
      let c := env.headD defaultIterCall
      let result := callTool t c.callOutcome c.callDuration
      let results := results ++ [result]
      let confidence := evaluateProgress c.evalConfidence
      if threshold ≤ confidence then (results, confidence, env.tail)
      else runInner threshold rest results confidence env.tail

/-- The outer `while (confidence < successThreshold && iterations <
maxTaskIterations)` loop of `executeIterativeTask`.  Each round runs the
inner loop and increments `iterations`; the loop body runs at most
`maxIter − iterations` times, so the structural `fuel` (instantiated
with `maxIter` at `iterations = 0`) is never exhausted while the loop
condition still holds. -/
def runOuter (threshold : ℚ) (maxIter : Nat) (tools : List String) :
    Nat → List ToolResult → ℚ → Nat → List IterCall →
    List ToolResult × ℚ × Nat
  | 0, results, confidence, iterations, _env => (results, confidence, iterations)
  | fuel + 1, results, confidence, iterations, env =>
      if confidence < threshold ∧ iterations < maxIter then
        let step := runInner threshold tools results confidence env
        runOuter threshold maxIter tools fuel step.1 step.2.1 (iterations + 1) step.2.2
      else (results, confidence, iterations)

/-- The `AIAgentOrchestrator.executeIterativeTask`: iterate from zero
results, confidence 0 and iteration count 0 with budget
`task.maxIterations || 10`; the final success flag is
`confidence >= successThreshold`. -/
def executeIterativeTask (threshold : ℚ) (maxIterations : Option Nat)
    (tools : List String) (env : List IterCall) : TaskResult :=
  let maxTaskIterations := natOr maxIterations 10
  let final := runOuter threshold maxTaskIterations tools maxTaskIterations [] 0 0 env
  { success := decide (threshold ≤ final.2.1), confidence := final.2.1
    iterations := final.2.2, results := final.1, duration := none, error := none }

/- ### Lemmas about the iterative loop -/

/-- The environment the inner loop leaves behind is a suffix of the one
it was given: its members were all present initially. -/
theorem runInner_env_sub (threshold : ℚ) :
    ∀ (tools : List String) (results : List ToolResult) (confidence : ℚ)
      (env : List IterCall),
      ∀ c ∈ (runInner threshold tools results confidence env).2.2, c ∈ env := by
  intro tools
  induction tools with
  | nil => intro results confidence env c hc; exact hc
  | cons t rest ih =>
      intro results confidence env c hc
      unfold runInner at hc
      by_cases h : threshold ≤ evaluateProgress (env.headD defaultIterCall).evalConfidence
      · simp only [h, if_true] at hc
        exact List.mem_of_mem_tail hc
      · simp only [h, if_false] at hc
        exact List.mem_of_mem_tail (ih _ _ _ c hc)

/-- If every evaluation in the environment lies in `[0,1]` and the
running confidence does, the inner loop keeps the confidence in `[0,1]`. -/
theorem runInner_conf_bounds (threshold : ℚ) :
    ∀ (tools : List String) (results : List ToolResult) (confidence : ℚ)
      (env : List IterCall),
      0 ≤ confidence → confidence ≤ 1 →
      (∀ c ∈ env, 0 ≤ c.evalConfidence ∧ c.evalConfidence ≤ 1) →
      0 ≤ (runInner threshold tools results confidence env).2.1 ∧
        (runInner threshold tools results confidence env).2.1 ≤ 1 := by
  intro tools
  induction tools with
  | nil => intro results confidence env h0 h1 _; exact ⟨h0, h1⟩
  | cons t rest ih =>
      intro results confidence env h0 h1 henv
      have hhead : 0 ≤ (env.headD defaultIterCall).evalConfidence ∧
          (env.headD defaultIterCall).evalConfidence ≤ 1 := by
        cases env with
        | nil => simp [defaultIterCall]
        | cons e tl => exact henv e (List.mem_cons_self e tl)
      unfold runInner
      by_cases h : threshold ≤ evaluateProgress (env.headD defaultIterCall).evalConfidence
      · simp only [h, if_true]
        exact hhead
      · simp only [h, if_false]
        refine ih _ _ _ hhead.1 hhead.2 ?_
        intro c hc
        exact henv c (List.mem_of_mem_tail hc)

/-- The outer loop keeps the confidence in `[0,1]` under the same
environment assumption. -/
theorem runOuter_conf_bounds (threshold : ℚ) (maxIter : Nat) (tools : List String) :
    ∀ (fuel : Nat) (results : List ToolResult) (confidence : ℚ) (iterations : Nat)
      (env : List IterCall),
      0 ≤ confidence → confidence ≤ 1 →
      (∀ c ∈ env, 0 ≤ c.evalConfidence ∧ c.evalConfidence ≤ 1) →
      0 ≤ (runOuter threshold maxIter tools fuel results confidence iterations env).2.1 ∧
        (runOuter threshold maxIter tools fuel results confidence iterations env).2.1 ≤ 1 := by
  intro fuel
  induction fuel with
  | zero => intro results confidence iterations env h0 h1 _; exact ⟨h0, h1⟩
  | succ fuel ih =>
      intro results confidence iterations env h0 h1 henv
      unfold runOuter
      by_cases h : confidence < threshold ∧ iterations < maxIter
      · simp only [h, if_true]
        have hin := runInner_conf_bounds threshold tools results confidence env h0 h1 henv
        refine ih _ _ _ _ hin.1 hin.2 ?_
        intro c hc
        exact henv c (runInner_env_sub threshold tools results confidence env c hc)
      · simp only [h, if_false]
        exact ⟨h0, h1⟩

/-- At loop exit, either the threshold was reached or the iteration
budget was exhausted, and the iteration count never exceeds the budget
(for the fuel discipline `iterations + fuel = maxIter` used by
`executeIterativeTask`). -/
theorem runOuter_exit (threshold : ℚ) (maxIter : Nat) (tools : List String) :
    ∀ (fuel : Nat) (results : List ToolResult) (confidence : ℚ) (iterations : Nat)
      (env : List IterCall),
      iterations + fuel = maxIter →
      (runOuter threshold maxIter tools fuel results confidence iterations env).2.2 ≤ maxIter ∧
        (threshold ≤ (runOuter threshold maxIter tools fuel results confidence iterations env).2.1 ∨
          (runOuter threshold maxIter tools fuel results confidence iterations env).2.2 = maxIter) := by
  intro fuel
  induction fuel with
  | zero =>
      intro results confidence iterations env hfuel
      simp only [runOuter]
      omega
  | succ fuel ih =>
      intro results confidence iterations env hfuel
      unfold runOuter
      by_cases h : confidence < threshold ∧ iterations < maxIter
      · simp only [h, if_true]
        exact ih _ _ _ _ (by omega)
      · simp only [h, if_false]
        constructor
        · omega
        · rcases not_and_or.mp h with h1 | h2
          · exact Or.inl (le_of_not_lt h1)
          · exact Or.inr (by omega)

/- ### C2 — confidence clamping -/

/-- C2: every confidence produced by the `AnthropicLLM.evaluate`
pipeline and forwarded by `evaluateProgress` lies in `[0,1]`; a raw
value of `1.4` yields `1` and a raw value of `-0.2` yields `0`; and the
confidence an iterative task loop folds in (fed exclusively by that
pipeline) stays in `[0,1]`. -/
theorem confidence_clamping :
    (∀ response : Option (Option ℚ),
        0 ≤ evaluateProgress (anthropicEvaluate response) ∧
          evaluateProgress (anthropicEvaluate response) ≤ 1) ∧
    evaluateProgress (anthropicEvaluate (some (some ((14 : ℚ) / 10)))) = 1 ∧
    evaluateProgress (anthropicEvaluate (some (some (-((2 : ℚ) / 10))))) = 0 ∧
    (∀ (threshold : ℚ) (maxIterations : Option Nat) (tools : List String)
        (env : List (Except String ToolOutput × Nat × Option (Option ℚ))),
        0 ≤ (executeIterativeTask threshold maxIterations tools
              (env.map (fun e =>
                { callOutcome := e.1, callDuration := e.2.1
                  evalConfidence := anthropicEvaluate e.2.2 }))).confidence ∧
          (executeIterativeTask threshold maxIterations tools
              (env.map (fun e =>
                { callOutcome := e.1, callDuration := e.2.1
                  evalConfidence := anthropicEvaluate e.2.2 }))).confidence ≤ 1) := by
  have hclamp : ∀ response : Option (Option ℚ),
      0 ≤ evaluateProgress (anthropicEvaluate response) ∧
        evaluateProgress (anthropicEvaluate response) ≤ 1 := by
    intro response
    cases response with
    | none => simp [anthropicEvaluate, evaluateProgress]
    | some c =>
        unfold anthropicEvaluate evaluateProgress
        constructor
        · exact le_max_left 0 _
        · exact max_le (by norm_num) (min_le_left 1 _)
  refine ⟨hclamp, by norm_num [anthropicEvaluate, evaluateProgress], by
    norm_num [anthropicEvaluate, evaluateProgress], ?_⟩
  intro threshold maxIterations tools env
  unfold executeIterativeTask
  refine runOuter_conf_bounds threshold _ tools _ [] 0 0 _ le_rfl (by norm_num) ?_
  intro c hc
  obtain ⟨e, _, he⟩ := List.mem_map.mp hc
  rw [← he]
  exact hclamp e.2.2

/- ### C3 — single-mode execution (corrected) -/

/-- C3 counterexample: the no-tool error message is not
`"no suitable tool"`, and a tool call that reports confidence 0 (here a
failed call) yields a task confidence of 1, not 0, because of the
JavaScript default `result.confidence || 1`. -/
theorem single_mode_counterexample :
    (executeSingleTask [] (Except.ok { confidence := some 1 }) 0).error ≠
        some "no suitable tool" ∧
    (callTool "t" (Except.error "boom") 7).confidence = 0 ∧
    (executeSingleTask ["t"] (Except.error "boom") 7).confidence = 1 := by
  refine ⟨?_, by decide, by decide⟩
  simp [executeSingleTask]

/-- C3 (amended): with no resolved tool the executor returns the fixed
failed result whose error message is
`"No suitable tools found for this task"`; otherwise it calls exactly
the first tool once, copies its success flag, and its confidence —
except that a reported confidence of 0 is, like an absent report,
replaced by 1. -/
theorem single_mode_execution :
    (∀ (firstCall : Except String ToolOutput) (duration : Nat),
        executeSingleTask [] firstCall duration =
          { success := false, confidence := 0, iterations := 1, results := []
            duration := none
            error := some "No suitable tools found for this task" }) ∧
    (∀ (t : String) (rest : List String) (firstCall : Except String ToolOutput)
        (duration : Nat),
        (executeSingleTask (t :: rest) firstCall duration).success =
            (callTool t firstCall duration).success ∧
        (executeSingleTask (t :: rest) firstCall duration).results =
            [callTool t firstCall duration] ∧
        (executeSingleTask (t :: rest) firstCall duration).iterations = 1 ∧
        ((callTool t firstCall duration).confidence ≠ 0 →
          (executeSingleTask (t :: rest) firstCall duration).confidence =
            (callTool t firstCall duration).confidence) ∧
        ((callTool t firstCall duration).confidence = 0 →
          (executeSingleTask (t :: rest) firstCall duration).confidence = 1)) := by
  refine ⟨fun firstCall duration => rfl, ?_⟩
  intro t rest firstCall duration
  refine ⟨rfl, rfl, rfl, ?_, ?_⟩
  · intro h
    simp [executeSingleTask, qOr, h]
  · intro h
    simp [executeSingleTask, qOr, h]

/-- C3 witness: a successful call reporting confidence `9/10` is copied
verbatim into the task result. -/
theorem single_mode_execution_witness :
    ((callTool "t" (Except.ok { confidence := some (mkRat 9 10) }) 3).confidence ≠ 0) ∧
    (executeSingleTask ["t"] (Except.ok { confidence := some (mkRat 9 10) }) 3).confidence =
      (callTool "t" (Except.ok { confidence := some (mkRat 9 10) }) 3).confidence :=
  ⟨by decide,
    ((single_mode_execution.2 "t" [] (Except.ok { confidence := some (mkRat 9 10) }) 3).2.2.2.1
      (by decide))⟩

/- ### C4 — iterative-mode termination -/

/-- The Oracle confidence trace `[0.3, 0.5, 0.85]` for one tool whose
calls all succeed. -/
def c4Env : List IterCall :=
  [ { callOutcome := Except.ok { confidence := some 1 }, callDuration := 0
      evalConfidence := mkRat 3 10 }
  , { callOutcome := Except.ok { confidence := some 1 }, callDuration := 0
      evalConfidence := mkRat 5 10 }
  , { callOutcome := Except.ok { confidence := some 1 }, callDuration := 0
      evalConfidence := mkRat 85 100 } ]

/-- C4: with `successThreshold = 0.8`, one selected tool and the
confidence trace `[0.3, 0.5, 0.85]`, the iterative executor stops after
exactly 3 outer rounds with `success = true`; in general the inner loop
stops the moment the evaluated confidence reaches the threshold, the
outer loop stops only when the threshold is met or the per-task budget
(`maxIterations || 10`) is exhausted, and the final success flag is
`confidence ≥ successThreshold`. -/
theorem iterative_termination :
    ((executeIterativeTask (mkRat 8 10) (some 10) ["t"] c4Env).success = true ∧
      (executeIterativeTask (mkRat 8 10) (some 10) ["t"] c4Env).iterations = 3 ∧
      (executeIterativeTask (mkRat 8 10) (some 10) ["t"] c4Env).confidence =
        mkRat 85 100) ∧
    (∀ (threshold : ℚ) (t : String) (rest : List String) (results : List ToolResult)
        (confidence : ℚ) (c : IterCall) (env : List IterCall),
        threshold ≤ c.evalConfidence →
        runInner threshold (t :: rest) results confidence (c :: env) =
          (results ++ [callTool t c.callOutcome c.callDuration], c.evalConfidence, env)) ∧
    (∀ (threshold : ℚ) (maxIterations : Option Nat) (tools : List String)
        (env : List IterCall),
        (executeIterativeTask threshold maxIterations tools env).success =
          decide (threshold ≤ (executeIterativeTask threshold maxIterations tools env).confidence) ∧
        (executeIterativeTask threshold maxIterations tools env).iterations ≤
          natOr maxIterations 10 ∧
        (threshold ≤ (executeIterativeTask threshold maxIterations tools env).confidence ∨
          (executeIterativeTask threshold maxIterations tools env).iterations =
            natOr maxIterations 10)) := by
  refine ⟨by refine ⟨?_, ?_, ?_⟩ <;> decide, ?_, ?_⟩
  · intro threshold t rest results confidence c env h
    unfold runInner
    simp only [List.headD_cons, List.tail_cons]
    rw [if_pos (by simpa [evaluateProgress] using h)]
    rfl
  · intro threshold maxIterations tools env
    have hexit := runOuter_exit threshold (natOr maxIterations 10) tools
      (natOr maxIterations 10) [] 0 0 env (by omega)
    exact ⟨rfl, hexit.1, hexit.2⟩

/-- C4 witness: the inner-loop early-stop equation at a concrete
above-threshold evaluation. -/
theorem iterative_termination_witness :
    (mkRat 1 2 ≤ (1 : ℚ)) ∧
    runInner (mkRat 1 2) ["t", "u"] [] 0
        [ { callOutcome := Except.ok { confidence := some 1 }, callDuration := 2
            evalConfidence := 1 } ] =
      ([callTool "t" (Except.ok { confidence := some 1 }) 2], 1, []) :=
  ⟨by decide,
    iterative_termination.2.1 (mkRat 1 2) "t" ["u"] [] 0
      { callOutcome := Except.ok { confidence := some 1 }, callDuration := 2
        evalConfidence := 1 } [] (by decide)⟩

/- ### C8 — tool failure containment -/

/-- C8: a thrown tool failure is caught inside `callTool` and converted
into a failed, zero-confidence `ToolResult` carrying the message; inside
the iterative loop such a failure is just appended as one more result
and the loop continues with the remaining tools; in single mode it
yields an ordinary failed `TaskResult` — it never escapes the wrapper. -/
theorem tool_failure_containment :
    (∀ (toolName msg : String) (duration : Nat),
        callTool toolName (Except.error msg) duration =
          { success := false, tool := toolName, output := none, duration := 0
            confidence := 0, error := some msg }) ∧
    (∀ (threshold : ℚ) (t : String) (rest : List String) (results : List ToolResult)
        (confidence : ℚ) (msg : String) (dur : Nat) (ec : ℚ) (env : List IterCall),
        ¬ threshold ≤ ec →
        runInner threshold (t :: rest) results confidence
            ({ callOutcome := Except.error msg, callDuration := dur
               evalConfidence := ec } :: env) =
          runInner threshold rest
            (results ++ [{ success := false, tool := t, output := none, duration := 0
                           confidence := 0, error := some msg }]) ec env) ∧
    (∀ (t : String) (rest : List String) (msg : String) (duration : Nat),
        (executeSingleTask (t :: rest) (Except.error msg) duration).success = false ∧
        (executeSingleTask (t :: rest) (Except.error msg) duration).results =
          [{ success := false, tool := t, output := none, duration := 0
             confidence := 0, error := some msg }]) := by
  refine ⟨fun toolName msg duration => rfl, ?_, ?_⟩
  · intro threshold t rest results confidence msg dur ec env h
    cases rest with
    | nil => simp [runInner, evaluateProgress, callTool, h]
    | cons t2 rest2 => simp [runInner, evaluateProgress, callTool, h]
  · intro t rest msg duration
    exact ⟨rfl, rfl⟩

/-- C8 witness: the loop-containment equation at threshold 1 and a
failing call evaluated at confidence 0. -/
theorem tool_failure_containment_witness :
    (¬ (1 : ℚ) ≤ 0) ∧
    runInner 1 ["t"] [] 0
        [ { callOutcome := Except.error "boom", callDuration := 4
            evalConfidence := 0 } ] =
      runInner 1 []
        [{ success := false, tool := "t", output := none, duration := 0
           confidence := 0, error := some "boom" }] 0 [] :=
  ⟨by decide,
    tool_failure_containment.2.1 1 "t" [] [] 0 "boom" 4 0 [] (by decide)⟩

/- ### Adjustments (`Checklist.applyAdjustments`) -/

/-- A `modify` adjustment's field patch, applied with
`Object.assign(task, adj.modifications)`: every present field overwrites
the task's, the `status` field included. -/
structure TaskPatch where
  name : Option String := none
  description : Option String := none
  priority : Option ℚ := none
  dependencies : Option (List String) := none
  successThreshold : Option ℚ := none
  estimatedComplexity : Option ℚ := none
  requiresIterativeExecution : Option Bool := none
  maxIterations : Option Nat := none
  requiredCapabilities : Option (List String) := none
  status : Option Status := none
deriving Repr

/-- The `Object.assign(task, adj.modifications)`. -/
def applyPatch (t : Task) (p : TaskPatch) : Task :=
  { t with
    name := p.name.getD t.name
    description := p.description.getD t.description
    priority := p.priority.getD t.priority
    dependencies := match p.dependencies with
      | none => t.dependencies
      | some ds => some ds
    successThreshold := p.successThreshold.getD t.successThreshold
    estimatedComplexity := p.estimatedComplexity.getD t.estimatedComplexity
    requiresIterativeExecution := p.requiresIterativeExecution.getD t.requiresIterativeExecution
    maxIterations := match p.maxIterations with
      | none => t.maxIterations
      | some n => some n
    requiredCapabilities := p.requiredCapabilities.getD t.requiredCapabilities
    status := p.status.getD t.status }

/-- The `adj.task` object of an `add` adjustment: all optional fields may
be omitted. -/
structure TaskSpec where
  id : Option String := none
  name : String
  description : String
  priority : Option ℚ := none
  dependencies : Option (List String) := none
  successThreshold : Option ℚ := none
  estimatedComplexity : Option ℚ := none
  requiresIterativeExecution : Option Bool := none
  maxIterations : Option Nat := none
  requiredCapabilities : Option (List String) := none
deriving Repr

/-- The new `Task` object built by the `add` branch of
`applyAdjustments`: `adj.task.id || `task_${Date.now()}``, JavaScript
`||` defaults for the numeric fields, status `pending`. -/
def mkTaskFromSpec (spec : TaskSpec) (now : Nat) : Task :=
  { id := strOr spec.id ("task_" ++ toString now)
    name := spec.name
    description := spec.description
    priority := numOr spec.priority 5
    dependencies := some (spec.dependencies.getD [])
    successThreshold := numOr spec.successThreshold (mkRat 8 10)
    estimatedComplexity := numOr spec.estimatedComplexity 5
    requiresIterativeExecution := spec.requiresIterativeExecution.getD false
    maxIterations := some (natOr spec.maxIterations 10)
    requiredCapabilities := spec.requiredCapabilities.getD []
    status := Status.pending
    result := none
    completedAt := none }

/-- The strategy `Adjustment` variants, distinguished in the source by
the string tag `adj.type`; `other` stands for any unrecognized tag,
which `applyAdjustments` ignores. -/
inductive Adjustment where
  | reorder (taskId : String) (newPriority : ℚ)
  | modify (taskId : String) (modifications : TaskPatch)
  | add (task : TaskSpec)
  | other
deriving Repr

/-- One arm of the `adjustments.forEach` body. -/
def applyAdjustment (m : TaskMap) (a : Adjustment) (now : Nat) : TaskMap :=
  match a with
  | Adjustment.reorder taskId newPriority =>
      match mapGet m taskId with
      | some t => mapSet m taskId { t with priority := newPriority }
      | none => m
  | Adjustment.modify taskId modifications =>
      match mapGet m taskId with
      | some t => mapSet m taskId (applyPatch t modifications)
      | none => m
  | Adjustment.add spec =>
      let newTask := mkTaskFromSpec spec now
      mapSet m newTask.id newTask
  | Adjustment.other => m

/-- Fold step of `applyAdjustments`: an `add` reads (and consumes) the
next `Date.now()` value of the run's clock stream. -/
def adjStep (st : TaskMap × List Nat) (a : Adjustment) : TaskMap × List Nat :=
  match a with
  | Adjustment.add _ => (applyAdjustment st.1 a (st.2.headD 0), st.2.tail)
  | _ => (applyAdjustment st.1 a 0, st.2)

/-- The `Checklist.applyAdjustments`: apply each adjustment in list order;
`nows` supplies the `Date.now()` reading for each `add` in turn. -/
def Checklist.applyAdjustments (cl : Checklist) (adjustments : List Adjustment)
    (nows : List Nat) : Checklist :=
  { cl with tasks := (adjustments.foldl adjStep (cl.tasks, nows)).1 }

/-- Adjustments that consume a `Date.now()` reading. -/
def countAdds (adjustments : List Adjustment) : Nat :=
  adjustments.countP (fun a => match a with
    | Adjustment.add _ => true
    | _ => false)

/- ### Lemmas about the task map and adjustments -/

/-- The `Map.set` never shrinks the map. -/
theorem length_le_mapSet (m : TaskMap) (k : String) (v : Task) :
    m.length ≤ (mapSet m k v).length := by
  unfold mapSet
  by_cases h : m.any (fun p => p.1 == k)
  · simp [h]
  · simp [h]

/-- The `Map.set` keeps every existing key present. -/
theorem mapGet_isSome_mapSet (m : TaskMap) (k : String) (v : Task) (id : String)
    (h : (mapGet m id).isSome = true) :
    (mapGet (mapSet m k v) id).isSome = true := by
  have hex : ∃ p ∈ m, p.1 = id := by
    unfold mapGet at h
    cases hfind : m.find? (fun p => p.1 == id) with
    | none => rw [hfind] at h; cases h
    | some q =>
        refine ⟨q, List.mem_of_find?_eq_some hfind, ?_⟩
        have := List.find?_some hfind
        exact eq_of_beq this
  obtain ⟨p, hp, hpid⟩ := hex
  have hex2 : ∃ q ∈ mapSet m k v, q.1 = id := by
    unfold mapSet
    by_cases hany : m.any (fun p => p.1 == k)
    · refine ⟨if p.1 == k then (k, v) else p, ?_, ?_⟩
      · simp only [hany, if_true, List.mem_map]
        exact ⟨p, hp, rfl⟩
      · by_cases hpk : p.1 == k
        · simp only [hpk, if_true]
          have : p.1 = k := eq_of_beq hpk
          rw [← this, hpid]
        · simp only [hpk, Bool.false_eq_true, if_false]
          exact hpid
    · exact ⟨p, by simp [hany, hp], hpid⟩
  obtain ⟨q, hq, hqid⟩ := hex2
  unfold mapGet
  cases hfind : (mapSet m k v).find? (fun p => p.1 == id) with
  | some r => simp
  | none =>
      exfalso
      have := List.find?_eq_none.mp hfind q hq
      simp [hqid] at this

/-- One adjustment never shrinks the map. -/
theorem length_le_applyAdjustment (m : TaskMap) (a : Adjustment) (now : Nat) :
    m.length ≤ (applyAdjustment m a now).length := by
  cases a with
  | reorder taskId newPriority =>
      simp only [applyAdjustment]
      cases h : mapGet m taskId with
      | some t => simp only []; exact length_le_mapSet m taskId _
      | none => simp only []; exact le_rfl
  | modify taskId modifications =>
      simp only [applyAdjustment]
      cases h : mapGet m taskId with
      | some t => simp only []; exact length_le_mapSet m taskId _
      | none => simp only []; exact le_rfl
  | add spec => exact length_le_mapSet m _ _
  | other => exact le_rfl

/-- One adjustment keeps every existing key present. -/
theorem mapGet_isSome_applyAdjustment (m : TaskMap) (a : Adjustment) (now : Nat)
    (id : String) (h : (mapGet m id).isSome = true) :
    (mapGet (applyAdjustment m a now) id).isSome = true := by
  cases a with
  | reorder taskId newPriority =>
      simp only [applyAdjustment]
      cases hg : mapGet m taskId with
      | some t => simp only []; exact mapGet_isSome_mapSet m taskId _ id h
      | none => simp only []; exact h
  | modify taskId modifications =>
      simp only [applyAdjustment]
      cases hg : mapGet m taskId with
      | some t => simp only []; exact mapGet_isSome_mapSet m taskId _ id h
      | none => simp only []; exact h
  | add spec => exact mapGet_isSome_mapSet m _ _ id h
  | other => exact h

/-- Folding the adjustment list never shrinks the map. -/
theorem length_le_foldl_adjStep (adjustments : List Adjustment) :
    ∀ st : TaskMap × List Nat,
      st.1.length ≤ (adjustments.foldl adjStep st).1.length := by
  induction adjustments with
  | nil => intro st; exact le_rfl
  | cons a rest ih =>
      intro st
      refine le_trans ?_ (ih (adjStep st a))
      cases a with
      | reorder taskId newPriority =>
          exact length_le_applyAdjustment st.1 (Adjustment.reorder taskId newPriority) 0
      | modify taskId modifications =>
          exact length_le_applyAdjustment st.1 (Adjustment.modify taskId modifications) 0
      | add spec =>
          exact length_le_applyAdjustment st.1 (Adjustment.add spec) (st.2.headD 0)
      | other => exact le_rfl

/-- Folding the adjustment list keeps every existing key present. -/
theorem mapGet_isSome_foldl_adjStep (adjustments : List Adjustment) :
    ∀ (st : TaskMap × List Nat) (id : String),
      (mapGet st.1 id).isSome = true →
      (mapGet (adjustments.foldl adjStep st).1 id).isSome = true := by
  induction adjustments with
  | nil => intro st id h; exact h
  | cons a rest ih =>
      intro st id h
      refine ih (adjStep st a) id ?_
      cases a with
      | reorder taskId newPriority =>
          exact mapGet_isSome_applyAdjustment st.1 (Adjustment.reorder taskId newPriority) 0 id h
      | modify taskId modifications =>
          exact mapGet_isSome_applyAdjustment st.1 (Adjustment.modify taskId modifications) 0 id h
      | add spec =>
          exact mapGet_isSome_applyAdjustment st.1 (Adjustment.add spec) (st.2.headD 0) id h
      | other => exact h

/-- The clock stream left after folding a list of adjustments: one
reading consumed per `add`. -/
theorem foldl_adjStep_clock (adjustments : List Adjustment) :
    ∀ st : TaskMap × List Nat,
      (adjustments.foldl adjStep st).2 = st.2.drop (countAdds adjustments) := by
  induction adjustments with
  | nil => intro st; simp [countAdds]
  | cons a rest ih =>
      intro st
      cases a with
      | reorder taskId newPriority =>
          rw [List.foldl_cons, ih]
          simp [adjStep, countAdds]
      | modify taskId modifications =>
          rw [List.foldl_cons, ih]
          simp [adjStep, countAdds]
      | add spec =>
          rw [List.foldl_cons, ih]
          simp only [adjStep]
          rw [← List.drop_one, List.drop_drop]
          simp [countAdds, List.countP_cons, Nat.add_comm]
      | other =>
          rw [List.foldl_cons, ih]
          simp [adjStep, countAdds]

/- ### C5 — adjustment application (corrected) -/

/-- An existing task whose id collides with a synthesized add id. -/
def sampleTask7 : Task :=
  { sampleTask0 with id := "task_7", name := "orig" }

/-- An `add` adjustment task with every optional field omitted. -/
def sampleSpec : TaskSpec :=
  { name := "new", description := "d" }

/-- C5 counterexample: with an existing task `task_7` and
`Date.now() = 7`, an `add` with no id synthesizes the id `task_7`, which
is not fresh: `Map.set` overwrites the existing task (its name changes
from `orig` to `new`) and the task count does not grow. -/
theorem adjustment_application_counterexample :
    ((Checklist.init [sampleTask7] sampleGoal).getTask "task_7").map Task.name =
        some "orig" ∧
    (((Checklist.init [sampleTask7] sampleGoal).applyAdjustments
        [Adjustment.add sampleSpec] [7]).getTask "task_7").map Task.name = some "new" ∧
    ((Checklist.init [sampleTask7] sampleGoal).applyAdjustments
        [Adjustment.add sampleSpec] [7]).tasks.length = 1 := by
  refine ⟨?_, ?_, ?_⟩ <;> decide

/-- C5 (amended): adjustments are applied in list order (splitting the
list splits the application, with the clock stream advanced by one
reading per `add`); an `add` with every optional field omitted receives
the defaults priority 5, successThreshold 0.8, maxIterations 10, empty
dependency and capability sets, status `pending`, and the synthesized id
`task_<timestamp>` — which is not guaranteed unique; after any
`applyAdjustments` call the task count never decreases and every
pre-existing task id is still present, although the task stored at a
colliding id may have been replaced. -/
theorem adjustment_application :
    (∀ (cl : Checklist) (l1 l2 : List Adjustment) (nows : List Nat),
        cl.applyAdjustments (l1 ++ l2) nows =
          (cl.applyAdjustments l1 nows).applyAdjustments l2
            (nows.drop (countAdds l1))) ∧
    (∀ (name description : String) (now : Nat),
        mkTaskFromSpec { name := name, description := description } now =
          { id := "task_" ++ toString now, name := name, description := description
            priority := 5, dependencies := some [], successThreshold := mkRat 8 10
            estimatedComplexity := 5, requiresIterativeExecution := false
            maxIterations := some 10, requiredCapabilities := []
            status := Status.pending, result := none, completedAt := none }) ∧
    (∀ (cl : Checklist) (adjustments : List Adjustment) (nows : List Nat),
        cl.tasks.length ≤ (cl.applyAdjustments adjustments nows).tasks.length) ∧
    (∀ (cl : Checklist) (adjustments : List Adjustment) (nows : List Nat) (id : String),
        (cl.getTask id).isSome = true →
        ((cl.applyAdjustments adjustments nows).getTask id).isSome = true) := by
  refine ⟨?_, ?_, ?_, ?_⟩
  · intro cl l1 l2 nows
    unfold Checklist.applyAdjustments
    simp only [List.foldl_append]
    have h3 : List.foldl adjStep (cl.tasks, nows) l1
        = ((List.foldl adjStep (cl.tasks, nows) l1).1, List.drop (countAdds l1) nows) := by
      rw [← foldl_adjStep_clock l1 (cl.tasks, nows)]
    conv_lhs => rw [h3]
  · intro name description now
    rfl
  · intro cl adjustments nows
    exact length_le_foldl_adjStep adjustments (cl.tasks, nows)
  · intro cl adjustments nows id h
    exact mapGet_isSome_foldl_adjStep adjustments (cl.tasks, nows) id h

/-- C5 witness: the id-preservation part at the concrete collision
state; `task_7` is still a present key after the overwriting `add`. -/
theorem adjustment_application_witness :
    ((Checklist.init [sampleTask7] sampleGoal).getTask "task_7").isSome = true ∧
    (((Checklist.init [sampleTask7] sampleGoal).applyAdjustments
        [Adjustment.add sampleSpec] [7]).getTask "task_7").isSome = true :=
  ⟨by decide,
    adjustment_application.2.2.2 (Checklist.init [sampleTask7] sampleGoal)
      [Adjustment.add sampleSpec] [7] "task_7" (by decide)⟩

/- ### The orchestrator loop body (`achieveGoal`) -/

/-- One entry of the run ledger `executionResult.tasksCompleted`. -/
structure LedgerEntry where
  task : Task
  result : TaskResult
  timestamp : Nat
deriving DecidableEq, Repr

/-- The `executeTaskWithProgress`: mark the task in progress, then either
forward `executeTask`'s result or catch a thrown failure and convert it
into a failed `TaskResult` carrying the message. -/
def executeTaskWithProgress (cl : Checklist) (taskId : String)
    (outcome : Except String TaskResult) : Checklist × TaskResult :=
  let cl1 := cl.setTaskInProgress taskId
  match outcome with
  | Except.ok r => (cl1, r)
  | Except.error msg =>
      (cl1, { success := false, confidence := 0, iterations := 1, results := []
              duration := none, error := some msg })

/-- The marking phase of a dispatched batch: every member's
`executeTaskWithProgress` starts by calling `setTaskInProgress`, before
any result is recorded. -/
def markBatch (cl : Checklist) (batch : List Task) : Checklist :=
  batch.foldl (fun c t => c.setTaskInProgress t.id) cl

/-- The `TaskResult`s `Promise.all` delivers for a batch: each member's
`executeTask` outcome, with a thrown failure converted by the `catch` of
`executeTaskWithProgress` into a failed result. -/
def batchResults (outcomes : List (Except String TaskResult)) : List TaskResult :=
  outcomes.map (fun o =>
    match o with
    | Except.ok r => r
    | Except.error msg =>
        { success := false, confidence := 0, iterations := 1, results := []
          duration := none, error := some msg })

/-- The recording loop after the batch join: for each (task, result)
pair in submission order, `updateTaskStatus` plus a ledger append. -/
def recordBatch (cl : Checklist) (ledger : List LedgerEntry)
    (pairs : List (Task × TaskResult)) (now : Nat) : Checklist × List LedgerEntry :=
  pairs.foldl (fun st p =>
    (st.1.updateTaskStatus p.1.id p.2 now,
      st.2 ++ [{ task := p.1, result := p.2, timestamp := now }])) (cl, ledger)

/-- The failure rate computed by `reflectAndAdapt`:
`tasksCompleted.slice(-5)` and the fraction of entries whose result
failed. -/
def recentFailureRate (ledger : List LedgerEntry) : ℚ :=
  let recentTasks := ledger.drop (ledger.length - 5)
  ((recentTasks.filter (fun e => !e.result.success)).length : ℚ) /
    ((recentTasks.length : ℚ))

/-- How many times one `reflectAndAdapt` call invokes the Oracle's
`strategize`: once when the recent failure rate exceeds 0.6, else not
at all. -/
def strategizeCalls (ledger : List LedgerEntry) : Nat :=
  if recentFailureRate ledger > (6 : ℚ) / 10 then 1 else 0

/-- One outer iteration of `achieveGoal` after the goal-achieved and
availability checks: take up to 3 available tasks, mark them, join the
batch, record every result into the checklist and the ledger, then
reflect (applying the Oracle's adjustments when strategize was
invoked).  Returns the new checklist, the new ledger, and the number of
`strategize` invocations. -/
def runIteration (cl : Checklist) (ledger : List LedgerEntry)
    (outcomes : List (Except String TaskResult)) (now : Nat)
    (adjustments : List Adjustment) (nows : List Nat) :
    Checklist × List LedgerEntry × Nat :=
  let tasksToExecute := (cl.getAvailableTasks).take 3
  let cl1 := markBatch cl tasksToExecute
  let results := batchResults outcomes
  let rec0 := recordBatch cl1 ledger (tasksToExecute.zip results) now
  let n := strategizeCalls rec0.2
  let cl2 := if n = 1 then rec0.1.applyAdjustments adjustments nows else rec0.1
  (cl2, rec0.2, n)

/- ### Further map lemmas -/

/-- A member's key is a present key. -/
theorem mapGet_isSome_of_mem {m : TaskMap} {p : String × Task} (hp : p ∈ m) :
    (mapGet m p.1).isSome = true := by
  unfold mapGet
  cases hfind : m.find? (fun q => q.1 == p.1) with
  | some q => simp
  | none =>
      exfalso
      have := List.find?_eq_none.mp hfind p hp
      simp at this

/-- Unfolding `find?` on a cons cell. -/
theorem find?_cons_eq (p : (String × Task) → Bool) (a : String × Task)
    (l : List (String × Task)) :
    (a :: l).find? p = bif p a then some a else l.find? p := rfl

/-- The `Map.set` followed by `Map.get` of the same key yields the new value. -/
theorem mapGet_mapSet_self (m : TaskMap) (k : String) (v : Task) :
    mapGet (mapSet m k v) k = some v := by
  have key : ∀ m : TaskMap, (mapSet m k v).find? (fun p => p.1 == k) = some (k, v) := by
    intro m
    induction m with
    | nil => simp [mapSet, List.find?]
    | cons p rest ih =>
        by_cases hp : (p.1 == k) = true
        · have hany : (p :: rest).any (fun q => q.1 == k) = true := by
            simp [List.any_cons, hp]
          unfold mapSet
          rw [if_pos hany]
          simp only [List.map_cons, hp, if_true]
          simp [List.find?]
        · have hp' : (p.1 == k) = false := by simpa using hp
          by_cases hrest : rest.any (fun q => q.1 == k)
          · have hany : (p :: rest).any (fun q => q.1 == k) = true := by
              simp [List.any_cons, hrest]
            unfold mapSet
            rw [if_pos hany]
            simp only [List.map_cons, hp', Bool.false_eq_true, if_false]
            rw [find?_cons_eq]
            simp only [hp', Bool.cond_false]
            unfold mapSet at ih
            rw [if_pos hrest] at ih
            exact ih
          · have hany : ¬ (p :: rest).any (fun q => q.1 == k) = true := by
              simp only [List.any_cons, Bool.or_eq_true]
              rintro (h | h)
              · exact hp h
              · exact hrest h
            unfold mapSet
            rw [if_neg hany, List.cons_append, find?_cons_eq]
            simp only [hp', Bool.cond_false]
            unfold mapSet at ih
            rw [if_neg (by simpa using hrest)] at ih
            exact ih
  unfold mapGet
  rw [key m]

/-- The `Map.set` leaves other keys' lookups unchanged. -/
theorem mapGet_mapSet_ne (m : TaskMap) (k : String) (v : Task) (id : String)
    (hne : id ≠ k) :
    mapGet (mapSet m k v) id = mapGet m id := by
  have key : ∀ m : TaskMap,
      (mapSet m k v).find? (fun p => p.1 == id) = m.find? (fun p => p.1 == id) := by
    intro m
    induction m with
    | nil =>
        simp only [mapSet, List.any_nil, Bool.false_eq_true, if_false, List.nil_append]
        have hkid : ((k, v).1 == id) = false := by
          simp only [beq_eq_false_iff_ne]
          exact fun h => hne (h.symm)
        simp [List.find?, hkid]
    | cons p rest ih =>
        have harm : ((if (p.1 == k) = true then (k, v) else p).1 == id) = (p.1 == id) := by
          by_cases hq : (p.1 == k) = true
          · simp only [hq, if_true]
            have h1 : (k == id) = false := by
              simp only [beq_eq_false_iff_ne]
              exact fun h => hne h.symm
            have h2 : (p.1 == id) = false := by
              simp only [beq_eq_false_iff_ne]
              have : p.1 = k := eq_of_beq hq
              rw [this]
              exact fun h => hne h.symm
            rw [h1, h2]
          · simp only [hq, Bool.false_eq_true, if_false]
        by_cases hany : (p :: rest).any (fun q => q.1 == k)
        · unfold mapSet
          rw [if_pos hany]
          simp only [List.map_cons]
          rw [find?_cons_eq, find?_cons_eq, harm]
          by_cases hpid : (p.1 == id) = true
          · simp only [hpid, Bool.cond_true]
            have hpk : (p.1 == k) = false := by
              simp only [beq_eq_false_iff_ne]
              intro h
              exact hne ((eq_of_beq hpid).symm.trans h)
            simp [hpk]
          · have hpid' : (p.1 == id) = false := by simpa using hpid
            simp only [hpid', Bool.cond_false]
            by_cases hrest : rest.any (fun q => q.1 == k)
            · unfold mapSet at ih
              rw [if_pos hrest] at ih
              exact ih
            · have hmapid : rest.map (fun q => if q.1 == k then (k, v) else q) = rest := by
                have hcongr : ∀ q ∈ rest, (if q.1 == k then (k, v) else q) = q := by
                  intro q hq
                  have hqk : (q.1 == k) = false := by
                    cases hqk : (q.1 == k) with
                    | true => exact absurd (by rw [List.any_eq_true]; exact ⟨q, hq, hqk⟩) hrest
                    | false => rfl
                  simp [hqk]
                rw [List.map_congr_left hcongr, List.map_id']
              rw [hmapid]
        · unfold mapSet
          rw [if_neg hany, List.cons_append, find?_cons_eq, find?_cons_eq]
          by_cases hpid : (p.1 == id) = true
          · simp only [hpid, Bool.cond_true]
          · have hpid' : (p.1 == id) = false := by simpa using hpid
            simp only [hpid', Bool.cond_false]
            have hrest : ¬ rest.any (fun q => q.1 == k) = true := by
              intro h
              exact hany (by simp [List.any_cons, h])
            unfold mapSet at ih
            rw [if_neg hrest] at ih
            exact ih
  unfold mapGet
  rw [key m]

/- ### Status-operation lemmas -/

/-- The `setTaskInProgress` keeps every present key present. -/
theorem getTask_isSome_setTaskInProgress (cl : Checklist) (tid id : String)
    (h : (cl.getTask id).isSome = true) :
    ((cl.setTaskInProgress tid).getTask id).isSome = true := by
  unfold Checklist.setTaskInProgress
  cases hg : mapGet cl.tasks tid with
  | none => simpa using h
  | some t =>
      simp only []
      exact mapGet_isSome_mapSet cl.tasks tid _ id h

/-- The `updateTaskStatus` keeps every present key present. -/
theorem getTask_isSome_updateTaskStatus (cl : Checklist) (tid : String)
    (r : TaskResult) (now : Nat) (id : String)
    (h : (cl.getTask id).isSome = true) :
    ((cl.updateTaskStatus tid r now).getTask id).isSome = true := by
  unfold Checklist.updateTaskStatus
  cases hg : mapGet cl.tasks tid with
  | none => simpa using h
  | some t =>
      simp only []
      exact mapGet_isSome_mapSet cl.tasks tid _ id h

/-- Recording a result for a present key makes its task terminal. -/
theorem getTask_updateTaskStatus_self (cl : Checklist) (id : String)
    (r : TaskResult) (now : Nat) (h : (cl.getTask id).isSome = true) :
    ∃ t, (cl.updateTaskStatus id r now).getTask id = some t ∧
      t.status.isTerminal = true := by
  unfold Checklist.getTask at h
  cases hg : mapGet cl.tasks id with
  | none => rw [hg] at h; cases h
  | some t =>
      refine ⟨{ t with
                status := (if r.success then Status.completed else Status.failed),
                result := some r,
                completedAt := some now }, ?_, ?_⟩
      · unfold Checklist.updateTaskStatus Checklist.getTask
        rw [hg]
        exact mapGet_mapSet_self cl.tasks id _
      · cases r.success <;> simp [Status.isTerminal]

/-- Recording a result for a different key leaves a lookup unchanged. -/
theorem getTask_updateTaskStatus_other (cl : Checklist) (tid : String)
    (r : TaskResult) (now : Nat) (id : String) (hne : id ≠ tid) :
    (cl.updateTaskStatus tid r now).getTask id = cl.getTask id := by
  unfold Checklist.updateTaskStatus Checklist.getTask
  cases hg : mapGet cl.tasks tid with
  | none => rfl
  | some t =>
      simp only []
      exact mapGet_mapSet_ne cl.tasks tid _ id hne

/-- The marking phase keeps every present key present. -/
theorem getTask_isSome_markBatch (batch : List Task) :
    ∀ (cl : Checklist) (id : String), (cl.getTask id).isSome = true →
      ((markBatch cl batch).getTask id).isSome = true := by
  induction batch with
  | nil => intro cl id h; exact h
  | cons t rest ih =>
      intro cl id h
      exact ih (cl.setTaskInProgress t.id) id
        (getTask_isSome_setTaskInProgress cl t.id id h)

/- ### Recording-loop lemmas -/

/-- The ledger after the recording loop: the prior ledger plus one entry
per (task, result) pair, in submission order. -/
theorem recordBatch_ledger (now : Nat) :
    ∀ (pairs : List (Task × TaskResult)) (cl : Checklist) (ledger : List LedgerEntry),
      (recordBatch cl ledger pairs now).2 =
        ledger ++ pairs.map (fun p => { task := p.1, result := p.2, timestamp := now }) := by
  intro pairs
  induction pairs with
  | nil => intro cl ledger; simp [recordBatch]
  | cons p rest ih =>
      intro cl ledger
      have hstep : recordBatch cl ledger (p :: rest) now =
          recordBatch (cl.updateTaskStatus p.1.id p.2 now)
            (ledger ++ [{ task := p.1, result := p.2, timestamp := now }]) rest now := rfl
      rw [hstep, ih]
      simp

/-- The recording loop keeps every present key present. -/
theorem recordBatch_isSome (now : Nat) :
    ∀ (pairs : List (Task × TaskResult)) (cl : Checklist) (ledger : List LedgerEntry)
      (id : String), (cl.getTask id).isSome = true →
      ((recordBatch cl ledger pairs now).1.getTask id).isSome = true := by
  intro pairs
  induction pairs with
  | nil => intro cl ledger id h; exact h
  | cons p rest ih =>
      intro cl ledger id h
      exact ih (cl.updateTaskStatus p.1.id p.2 now)
        (ledger ++ [{ task := p.1, result := p.2, timestamp := now }]) id
        (getTask_isSome_updateTaskStatus cl p.1.id p.2 now id h)

/-- The recording loop never reverts a terminal task: recording the same
id again just makes it terminal anew, recording another id leaves it
untouched. -/
theorem recordBatch_keeps_terminal (now : Nat) :
    ∀ (pairs : List (Task × TaskResult)) (cl : Checklist) (ledger : List LedgerEntry)
      (id : String),
      (∃ t, cl.getTask id = some t ∧ t.status.isTerminal = true) →
      ∃ t, (recordBatch cl ledger pairs now).1.getTask id = some t ∧
        t.status.isTerminal = true := by
  intro pairs
  induction pairs with
  | nil => intro cl ledger id h; exact h
  | cons p rest ih =>
      intro cl ledger id h
      have hstep : ∃ t, (cl.updateTaskStatus p.1.id p.2 now).getTask id = some t ∧
          t.status.isTerminal = true := by
        by_cases he : id = p.1.id
        · rw [he]
          refine getTask_updateTaskStatus_self cl p.1.id p.2 now ?_
          obtain ⟨t, ht, _⟩ := h
          rw [← he]
          simp [ht]
        · obtain ⟨t, ht, hterm⟩ := h
          refine ⟨t, ?_, hterm⟩
          rw [getTask_updateTaskStatus_other cl p.1.id p.2 now id he]
          exact ht
      exact ih (cl.updateTaskStatus p.1.id p.2 now)
        (ledger ++ [{ task := p.1, result := p.2, timestamp := now }]) id hstep

/-- After the recording loop every recorded id's task is terminal. -/
theorem recordBatch_terminal (now : Nat) :
    ∀ (pairs : List (Task × TaskResult)) (cl : Checklist) (ledger : List LedgerEntry),
      (∀ p ∈ pairs, ((cl.getTask (Task.id p.1)).isSome = true)) →
      ∀ p ∈ pairs, ∃ t, (recordBatch cl ledger pairs now).1.getTask p.1.id = some t ∧
        t.status.isTerminal = true := by
  intro pairs
  induction pairs with
  | nil => intro cl ledger _ p hp; cases hp
  | cons q rest ih =>
      intro cl ledger hpres p hp
      rcases List.mem_cons.mp hp with heq | hmem
      · subst heq
        have hq := getTask_updateTaskStatus_self cl p.1.id p.2 now
          (hpres p (List.mem_cons_self p rest))
        exact recordBatch_keeps_terminal now rest (cl.updateTaskStatus p.1.id p.2 now)
          (ledger ++ [{ task := p.1, result := p.2, timestamp := now }]) p.1.id hq
      · refine ih (cl.updateTaskStatus q.1.id q.2 now)
          (ledger ++ [{ task := q.1, result := q.2, timestamp := now }]) ?_ p hmem
        intro p2 hp2
        exact getTask_isSome_updateTaskStatus cl q.1.id q.2 now p2.1.id
          (hpres p2 (List.mem_cons_of_mem q hp2))

/-- An available task is a value of the task map. -/
theorem available_mem_tasks (cl : Checklist) (t : Task)
    (ht : t ∈ cl.getAvailableTasks) :
    ∃ p ∈ cl.tasks, p.2 = t := by
  unfold Checklist.getAvailableTasks at ht
  have := List.mem_of_mem_filter ht
  obtain ⟨p, hp, he⟩ := List.mem_map.mp this
  exact ⟨p, hp, he⟩

/-- With id-consistent map entries, an available task's id is a present
key. -/
theorem getTask_isSome_of_available (cl : Checklist) (t : Task)
    (hid : ∀ p ∈ cl.tasks, p.2.id = p.1) (ht : t ∈ cl.getAvailableTasks) :
    (cl.getTask t.id).isSome = true := by
  obtain ⟨p, hp, he⟩ := available_mem_tasks cl t ht
  have hkey : t.id = p.1 := by rw [← he]; exact hid p hp
  unfold Checklist.getTask
  rw [hkey]
  exact mapGet_isSome_of_mem hp

/-- Every element of the left list of a zip (against a list at least as
long) appears as a first component. -/
theorem mem_zip_of_mem_left {α β : Type} :
    ∀ (l1 : List α) (l2 : List β), l1.length ≤ l2.length →
      ∀ a ∈ l1, ∃ b, (a, b) ∈ l1.zip l2 := by
  intro l1
  induction l1 with
  | nil => intro l2 _ a ha; cases ha
  | cons x t1 ih =>
      intro l2 hlen a ha
      cases l2 with
      | nil => simp at hlen
      | cons y t2 =>
          rcases List.mem_cons.mp ha with heq | hmem
          · subst heq
            exact ⟨y, List.mem_cons_self _ _⟩
          · obtain ⟨b, hb⟩ := ih t2 (by simpa using hlen) a hmem
            exact ⟨b, List.mem_cons_of_mem _ hb⟩

/- ### C9 — batch atomicity -/

/-- C9: for any dispatched batch (the first three available tasks) and
any member outcomes — thrown failures included — the recording loop
after the batch join gives every batch member a terminal status
(`completed` or `failed`, never a lingering `in_progress`), and appends
exactly one ledger entry per member in submission order. -/
theorem batch_atomicity (cl : Checklist) (ledger : List LedgerEntry)
    (outcomes : List (Except String TaskResult)) (now : Nat)
    (batch : List Task)
    (hbatch : batch = (cl.getAvailableTasks).take 3)
    (hid : ∀ p ∈ cl.tasks, p.2.id = p.1)
    (hlen : batch.length ≤ (batchResults outcomes).length) :
    (∀ t ∈ batch,
        ∃ t2, (recordBatch (markBatch cl batch) ledger
            (batch.zip (batchResults outcomes)) now).1.getTask t.id = some t2 ∧
          t2.status.isTerminal = true) ∧
    (recordBatch (markBatch cl batch) ledger (batch.zip (batchResults outcomes)) now).2 =
      ledger ++ (batch.zip (batchResults outcomes)).map
        (fun p => { task := p.1, result := p.2, timestamp := now }) ∧
    (recordBatch (markBatch cl batch) ledger
        (batch.zip (batchResults outcomes)) now).2.length =
      ledger.length + batch.length := by
  have hmem : ∀ t ∈ batch, t ∈ cl.getAvailableTasks := by
    intro t ht
    rw [hbatch] at ht
    exact List.mem_of_mem_take ht
  have hpres : ∀ p ∈ batch.zip (batchResults outcomes),
      (((markBatch cl batch).getTask (Task.id p.1)).isSome = true) := by
    intro p hp
    have hp1 : p.1 ∈ batch := (List.mem_zip hp).1
    exact getTask_isSome_markBatch batch cl p.1.id
      (getTask_isSome_of_available cl p.1 hid (hmem p.1 hp1))
  refine ⟨?_, recordBatch_ledger now _ _ _, ?_⟩
  · intro t ht
    obtain ⟨r, hr⟩ := mem_zip_of_mem_left batch (batchResults outcomes) hlen t ht
    have := recordBatch_terminal now (batch.zip (batchResults outcomes))
      (markBatch cl batch) ledger hpres (t, r) hr
    exact this
  · rw [recordBatch_ledger now _ _ _]
    simp only [List.length_append, List.length_map, List.length_zip]
    omega

/- ### C6 — reflection trigger -/

/-- A failed `TaskResult` for ledger examples. -/
def failResult : TaskResult :=
  { success := false, confidence := 0, iterations := 1, results := []
    duration := none, error := some "e" }

/-- A ledger entry whose task succeeded. -/
def passEntry : LedgerEntry :=
  { task := sampleTask0, result := sampleSuccess, timestamp := 0 }

/-- A ledger entry whose task failed. -/
def failEntry : LedgerEntry :=
  { task := sampleTask0, result := failResult, timestamp := 0 }

/-- The `reflectAndAdapt` invokes `strategize` at most once per iteration,
and exactly once precisely when the failure count among the most recent
`min(5, ledger length)` entries exceeds 0.6 of that window. -/
theorem strategizeCalls_spec (L : List LedgerEntry) (hne : L ≠ []) :
    strategizeCalls L = 1 ↔
      (6 : ℚ) / 10 * ((min 5 L.length : ℕ) : ℚ) <
        (((L.drop (L.length - 5)).filter (fun e => !e.result.success)).length : ℚ) := by
  have hlen : (L.drop (L.length - 5)).length = min 5 L.length := by
    rw [List.length_drop]
    omega
  have hposn : 0 < min 5 L.length := by
    have := List.length_pos.mpr hne
    omega
  have hpos : (0 : ℚ) < ((L.drop (L.length - 5)).length : ℚ) := by
    rw [hlen]
    exact_mod_cast hposn
  have hcond : recentFailureRate L > (6 : ℚ) / 10 ↔
      (6 : ℚ) / 10 * ((min 5 L.length : ℕ) : ℚ) <
        (((L.drop (L.length - 5)).filter (fun e => !e.result.success)).length : ℚ) := by
    simp only [recentFailureRate]
    rw [gt_iff_lt, lt_div_iff hpos,
      show (((L.drop (L.length - 5)).length : ℚ)) = ((min 5 L.length : ℕ) : ℚ) from by
        exact_mod_cast hlen]
  unfold strategizeCalls
  by_cases hc : recentFailureRate L > (6 : ℚ) / 10
  · rw [if_pos hc]
    exact ⟨fun _ => hcond.mp hc, fun _ => rfl⟩
  · rw [if_neg hc]
    exact ⟨fun h0 => absurd h0 (by norm_num), fun h => absurd (hcond.mpr h) hc⟩

/-- C6: in every outer iteration the reflection step runs on the
post-recording ledger and invokes the Oracle's `strategize` at most
once — exactly once when the failure fraction among the most recent
`min(5, ledger length)` entries exceeds 0.6, and not at all otherwise;
with 4 failures among the last 5 it fires, with 2 it does not. -/
theorem reflection_trigger :
    (∀ (cl : Checklist) (ledger : List LedgerEntry)
        (outcomes : List (Except String TaskResult)) (now : Nat)
        (adjustments : List Adjustment) (nows : List Nat),
        (runIteration cl ledger outcomes now adjustments nows).2.2 =
          strategizeCalls (runIteration cl ledger outcomes now adjustments nows).2.1 ∧
        (runIteration cl ledger outcomes now adjustments nows).2.2 ≤ 1) ∧
    (∀ L : List LedgerEntry, L ≠ [] →
        (strategizeCalls L = 1 ↔
          (6 : ℚ) / 10 * ((min 5 L.length : ℕ) : ℚ) <
            (((L.drop (L.length - 5)).filter (fun e => !e.result.success)).length : ℚ))) ∧
    strategizeCalls [failEntry, failEntry, failEntry, failEntry, passEntry] = 1 ∧
    strategizeCalls [failEntry, failEntry, passEntry, passEntry, passEntry] = 0 := by
  refine ⟨?_, strategizeCalls_spec, ?_, ?_⟩
  · intro cl ledger outcomes now adjustments nows
    refine ⟨rfl, ?_⟩
    show strategizeCalls _ ≤ 1
    unfold strategizeCalls
    split <;> omega
  · norm_num [strategizeCalls, recentFailureRate, failEntry, passEntry, failResult,
      sampleSuccess]
  · norm_num [strategizeCalls, recentFailureRate, failEntry, passEntry, failResult,
      sampleSuccess]

/-- C6 witness: the trigger characterization applied to the concrete
4-failures-of-5 ledger. -/
theorem reflection_trigger_witness :
    [failEntry, failEntry, failEntry, failEntry, passEntry] ≠ ([] : List LedgerEntry) ∧
    (strategizeCalls [failEntry, failEntry, failEntry, failEntry, passEntry] = 1 ↔
      (6 : ℚ) / 10 *
          ((min 5 ([failEntry, failEntry, failEntry, failEntry,
              passEntry] : List LedgerEntry).length : ℕ) : ℚ) <
        (((([failEntry, failEntry, failEntry, failEntry,
              passEntry] : List LedgerEntry).drop
            (([failEntry, failEntry, failEntry, failEntry,
                passEntry] : List LedgerEntry).length - 5)).filter
          (fun e => !e.result.success)).length : ℚ)) :=
  ⟨by simp, reflection_trigger.2.1 [failEntry, failEntry, failEntry, failEntry, passEntry]
    (by simp)⟩

/- ### C9 witness data -/

/-- Three dependency-free tasks for a concrete batch. -/
def taskA : Task :=
  { id := "a", name := "A", description := "", priority := 5
    dependencies := none, successThreshold := 1, estimatedComplexity := 5
    requiresIterativeExecution := false, maxIterations := some 10
    requiredCapabilities := [], status := Status.pending, result := none
    completedAt := none }

/-- Second concrete task. -/
def taskB : Task :=
  { taskA with id := "b", name := "B" }

/-- Third concrete task. -/
def taskC : Task :=
  { taskA with id := "c", name := "C" }

/-- A concrete three-task checklist, all tasks available. -/
def clABC : Checklist :=
  Checklist.init [taskA, taskB, taskC] sampleGoal

/-- Concrete batch outcomes: one success, one thrown failure, one
failed result. -/
def outcomesABC : List (Except String TaskResult) :=
  [Except.ok sampleSuccess, Except.error "boom", Except.ok failResult]

/-- C9 witness: with the middle task's execution throwing, every batch
member of the concrete checklist still ends terminal. -/
theorem batch_atomicity_witness :
    (∀ p ∈ clABC.tasks, p.2.id = p.1) ∧
    ((clABC.getAvailableTasks).take 3).length ≤ (batchResults outcomesABC).length ∧
    taskA ∈ (clABC.getAvailableTasks).take 3 ∧
    ∃ t2, (recordBatch (markBatch clABC ((clABC.getAvailableTasks).take 3)) []
        (((clABC.getAvailableTasks).take 3).zip (batchResults outcomesABC)) 0).1.getTask
          taskA.id = some t2 ∧ t2.status.isTerminal = true :=
  ⟨by decide, by decide, by decide,
    (batch_atomicity clABC [] outcomesABC 0 ((clABC.getAvailableTasks).take 3) rfl
      (by decide) (by decide)).1 taskA (by decide)⟩

/- ### Per-operation lookup lemmas and map well-formedness -/

/-- A task's dependency list (empty when the optional field is absent). -/
def depsOf (t : Task) : List String :=
  t.dependencies.getD []

/-- Marking a present task rewrites exactly its status. -/
theorem getTask_setTaskInProgress_self (cl : Checklist) (tid : String) (t : Task)
    (h : cl.getTask tid = some t) :
    (cl.setTaskInProgress tid).getTask tid =
      some { t with status := Status.in_progress } := by
  unfold Checklist.getTask at h
  unfold Checklist.setTaskInProgress Checklist.getTask
  rw [h]
  exact mapGet_mapSet_self cl.tasks tid _

/-- Marking one task leaves other ids' lookups unchanged. -/
theorem getTask_setTaskInProgress_other (cl : Checklist) (tid : String) (id : String)
    (hne : id ≠ tid) :
    (cl.setTaskInProgress tid).getTask id = cl.getTask id := by
  unfold Checklist.setTaskInProgress Checklist.getTask
  cases hg : mapGet cl.tasks tid with
  | none => rfl
  | some t =>
      simp only []
      exact mapGet_mapSet_ne cl.tasks tid _ id hne

/-- Map keys are untouched when `Map.set` replaces an existing key. -/
theorem keys_mapSet_replace (m : TaskMap) (k : String) (v : Task)
    (h : m.any (fun p => p.1 == k) = true) :
    (mapSet m k v).map (fun p => p.1) = m.map (fun p => p.1) := by
  unfold mapSet
  rw [if_pos h, List.map_map]
  apply List.map_congr_left
  intro p _
  by_cases hp : (p.1 == k) = true
  · simp only [Function.comp, hp, if_true]
    exact (eq_of_beq hp).symm
  · simp only [Function.comp, hp, Bool.false_eq_true, if_false]

/-- Map keys are extended by the new key when it was absent. -/
theorem keys_mapSet_append (m : TaskMap) (k : String) (v : Task)
    (h : ¬ m.any (fun p => p.1 == k) = true) :
    (mapSet m k v).map (fun p => p.1) = m.map (fun p => p.1) ++ [k] := by
  unfold mapSet
  rw [if_neg h]
  simp

/-- Well-formedness of a checklist's task map: keys are distinct and
every stored task's id field equals its key.  The `Checklist` class
maintains this by construction. -/
abbrev Checklist.wf (cl : Checklist) : Prop :=
  (cl.tasks.map (fun p => p.1)).Nodup ∧ ∀ p ∈ cl.tasks, p.2.id = p.1

/-- The `Map.set` preserves well-formedness when the value's id is its key. -/
theorem wf_mapSet (m : TaskMap) (k : String) (v : Task)
    (hnd : (m.map (fun p => p.1)).Nodup) (hidc : ∀ p ∈ m, p.2.id = p.1)
    (hv : v.id = k) :
    ((mapSet m k v).map (fun p => p.1)).Nodup ∧
      ∀ p ∈ mapSet m k v, p.2.id = p.1 := by
  constructor
  · by_cases h : m.any (fun p => p.1 == k) = true
    · rw [keys_mapSet_replace m k v h]
      exact hnd
    · rw [keys_mapSet_append m k v h]
      rw [List.nodup_append]
      refine ⟨hnd, List.nodup_singleton k, ?_⟩
      intro x hx
      simp only [List.mem_singleton]
      intro hxk
      subst hxk
      obtain ⟨p, hp, hpk⟩ := List.mem_map.mp hx
      exact h (by rw [List.any_eq_true]; exact ⟨p, hp, by simp [hpk]⟩)
  · intro p hp
    rcases mem_mapSet hp with h | h
    · exact hidc p h
    · rw [h]
      exact hv

/-- The constructor produces a well-formed checklist. -/
theorem wf_init (tasks : List Task) (gd : GoalDefinition) :
    (Checklist.init tasks gd).wf := by
  have key : ∀ (ts : List Task) (m : TaskMap),
      (m.map (fun p => p.1)).Nodup → (∀ p ∈ m, p.2.id = p.1) →
      (((ts.foldl (fun m t => mapSet m t.id { t with status := Status.pending }) m).map
          (fun p => p.1)).Nodup ∧
        ∀ p ∈ ts.foldl (fun m t => mapSet m t.id { t with status := Status.pending }) m,
          p.2.id = p.1) := by
    intro ts
    induction ts with
    | nil => intro m h1 h2; exact ⟨h1, h2⟩
    | cons t rest ih =>
        intro m h1 h2
        have hstep := wf_mapSet m t.id { t with status := Status.pending } h1 h2 rfl
        exact ih _ hstep.1 hstep.2
  exact key tasks [] (by simp) (by intro p hp; cases hp)

/-- The `setTaskInProgress` preserves well-formedness. -/
theorem wf_setTaskInProgress (cl : Checklist) (tid : String) (hwf : cl.wf) :
    (cl.setTaskInProgress tid).wf := by
  unfold Checklist.setTaskInProgress
  cases hg : mapGet cl.tasks tid with
  | none => simpa using hwf
  | some t =>
      simp only []
      have htid : t.id = tid := by
        unfold mapGet at hg
        cases hfind : cl.tasks.find? (fun p => p.1 == tid) with
        | none => rw [hfind] at hg; cases hg
        | some q =>
            rw [hfind] at hg
            have hq := List.mem_of_find?_eq_some hfind
            have hbq := List.find?_some hfind
            have hkey : q.1 = tid := eq_of_beq (by simpa using hbq)
            have := hwf.2 q hq
            cases hg
            rw [this, hkey]
      exact wf_mapSet cl.tasks tid _ hwf.1 hwf.2 htid

/-- The `updateTaskStatus` preserves well-formedness. -/
theorem wf_updateTaskStatus (cl : Checklist) (tid : String) (r : TaskResult)
    (now : Nat) (hwf : cl.wf) :
    (cl.updateTaskStatus tid r now).wf := by
  unfold Checklist.updateTaskStatus
  cases hg : mapGet cl.tasks tid with
  | none => simpa using hwf
  | some t =>
      simp only []
      have htid : t.id = tid := by
        unfold mapGet at hg
        cases hfind : cl.tasks.find? (fun p => p.1 == tid) with
        | none => rw [hfind] at hg; cases hg
        | some q =>
            rw [hfind] at hg
            have hq := List.mem_of_find?_eq_some hfind
            have hbq := List.find?_some hfind
            have hkey : q.1 = tid := eq_of_beq (by simpa using hbq)
            have := hwf.2 q hq
            cases hg
            rw [this, hkey]
      exact wf_mapSet cl.tasks tid _ hwf.1 hwf.2 htid

/-- With well-formed state, a map member is exactly what its key looks
up. -/
theorem getTask_of_mem_wf (cl : Checklist) (hwf : cl.wf) :
    ∀ {k : String} {t : Task}, (k, t) ∈ cl.tasks → cl.getTask k = some t := by
  have key : ∀ (m : TaskMap), (m.map (fun p => p.1)).Nodup →
      ∀ (k : String) (t : Task), (k, t) ∈ m → mapGet m k = some t := by
    intro m
    induction m with
    | nil => intro _ k t ht; cases ht
    | cons p rest ih =>
        intro hnd k t ht
        have hnd' : (p.1 :: rest.map (fun p => p.1)).Nodup := by simpa using hnd
        have hnd2 := List.nodup_cons.mp hnd'
        rcases List.mem_cons.mp ht with heq | hmem
        · rw [← heq]
          unfold mapGet
          rw [find?_cons_eq]
          simp
        · have hpk : (p.1 == k) = false := by
            cases hpk : (p.1 == k) with
            | false => rfl
            | true =>
                exfalso
                have hkeq : p.1 = k := eq_of_beq hpk
                apply hnd2.1
                rw [hkeq]
                exact List.mem_map.mpr ⟨(k, t), hmem, rfl⟩
          unfold mapGet
          rw [find?_cons_eq]
          simp only [hpk, Bool.cond_false]
          exact ih hnd2.2 k t hmem
  intro k t ht
  exact key cl.tasks hwf.1 k t ht

/-- With well-formed state, an available task is what its own id looks
up, its status is `pending`, and its dependency check passed. -/
theorem available_getTask (cl : Checklist) (t : Task) (hwf : cl.wf)
    (ht : t ∈ cl.getAvailableTasks) :
    cl.getTask t.id = some t ∧ t.status = Status.pending ∧
      depsSatisfiedB cl t = true := by
  unfold Checklist.getAvailableTasks at ht
  have hmem := List.mem_of_mem_filter ht
  have hpred := List.of_mem_filter ht
  obtain ⟨p, hp, he⟩ := List.mem_map.mp hmem
  have hkey : t.id = p.1 := by rw [← he]; exact hwf.2 p hp
  have hp' : (p.1, t) ∈ cl.tasks := by
    have hpe : p = (p.1, t) := by rw [← he]
    rw [← hpe]
    exact hp
  have hget : cl.getTask t.id = some t := by
    rw [hkey]
    exact getTask_of_mem_wf cl hwf hp'
  refine ⟨hget, ?_, ?_⟩
  · have := (Bool.and_eq_true _ _).mp hpred
    exact eq_of_beq this.1
  · exact ((Bool.and_eq_true _ _).mp hpred).2

/- ### Safe adjustments and the run step relation -/

/-- A looked-up task carries its key as id when entries are
id-consistent. -/
theorem mapGet_id (m : TaskMap) (tid : String) (t : Task)
    (hg : mapGet m tid = some t) (hidc : ∀ p ∈ m, p.2.id = p.1) : t.id = tid := by
  unfold mapGet at hg
  cases hfind : m.find? (fun p => p.1 == tid) with
  | none => rw [hfind] at hg; cases hg
  | some q =>
      rw [hfind] at hg
      have hq := List.mem_of_find?_eq_some hfind
      have hbq := List.find?_some hfind
      have hkey : q.1 = tid := eq_of_beq (by simpa using hbq)
      have := hidc q hq
      cases hg
      rw [this, hkey]

/-- One adjustment preserves well-formedness. -/
theorem wf_applyAdjustment (m : TaskMap) (a : Adjustment) (now : Nat)
    (hnd : (m.map (fun p => p.1)).Nodup) (hidc : ∀ p ∈ m, p.2.id = p.1) :
    ((applyAdjustment m a now).map (fun p => p.1)).Nodup ∧
      ∀ p ∈ applyAdjustment m a now, p.2.id = p.1 := by
  cases a with
  | reorder tid np =>
      simp only [applyAdjustment]
      cases hg : mapGet m tid with
      | none => exact ⟨hnd, hidc⟩
      | some t =>
          simp only []
          exact wf_mapSet m tid _ hnd hidc (mapGet_id m tid t hg hidc)
  | modify tid patch =>
      simp only [applyAdjustment]
      cases hg : mapGet m tid with
      | none => exact ⟨hnd, hidc⟩
      | some t =>
          simp only []
          exact wf_mapSet m tid _ hnd hidc (mapGet_id m tid t hg hidc)
  | add spec =>
      exact wf_mapSet m _ _ hnd hidc rfl
  | other => exact ⟨hnd, hidc⟩

/-- The `applyAdjustments` preserves well-formedness. -/
theorem wf_applyAdjustments (cl : Checklist) (adjustments : List Adjustment)
    (nows : List Nat) (hwf : cl.wf) :
    (cl.applyAdjustments adjustments nows).wf := by
  have key : ∀ (l : List Adjustment) (st : TaskMap × List Nat),
      (st.1.map (fun p => p.1)).Nodup → (∀ p ∈ st.1, p.2.id = p.1) →
      (((l.foldl adjStep st).1.map (fun p => p.1)).Nodup ∧
        ∀ p ∈ (l.foldl adjStep st).1, p.2.id = p.1) := by
    intro l
    induction l with
    | nil => intro st h1 h2; exact ⟨h1, h2⟩
    | cons a rest ih =>
        intro st h1 h2
        have hstep : (((adjStep st a).1.map (fun p => p.1)).Nodup ∧
            ∀ p ∈ (adjStep st a).1, p.2.id = p.1) := by
          cases a with
          | reorder tid np =>
              exact wf_applyAdjustment st.1 (Adjustment.reorder tid np) 0 h1 h2
          | modify tid patch =>
              exact wf_applyAdjustment st.1 (Adjustment.modify tid patch) 0 h1 h2
          | add spec =>
              exact wf_applyAdjustment st.1 (Adjustment.add spec) (st.2.headD 0) h1 h2
          | other => exact ⟨h1, h2⟩
        exact ih (adjStep st a) hstep.1 hstep.2
  exact key adjustments (cl.tasks, nows) hwf.1 hwf.2

/-- An id currently holding a terminal task. -/
def terminalInCl (cl : Checklist) (id : String) : Prop :=
  ∃ t, cl.getTask id = some t ∧ t.status.isTerminal = true

/-- An adjustment that cannot touch a status: `modify` patches that omit
`status`, `add`s whose (given or synthesized) id does not collide with a
terminal task, `reorder` and unrecognized tags.  (Outside this class the
source can overwrite a terminal status — see the C1 counterexample.) -/
def SafeAdj (cl : Checklist) : Adjustment → Prop
  | Adjustment.modify _ patch => patch.status = none
  | Adjustment.add spec =>
      ∀ now : Nat, ¬ terminalInCl cl (strOr spec.id ("task_" ++ toString now))
  | _ => True

/-- Terminal statuses of the original checklist survive in a map. -/
def TerminalsPreserved (cl : Checklist) (m : TaskMap) : Prop :=
  ∀ id t0, mapGet cl.tasks id = some t0 → t0.status.isTerminal = true →
    ∃ t1, mapGet m id = some t1 ∧ t1.status = t0.status

/-- Terminal tasks of a map all stem from terminal ids of the original
checklist. -/
def TerminalsFrom (cl : Checklist) (m : TaskMap) : Prop :=
  ∀ id t1, mapGet m id = some t1 → t1.status.isTerminal = true →
    ∃ t0, mapGet cl.tasks id = some t0 ∧ t0.status.isTerminal = true

/-- One safe adjustment preserves the two terminal-status invariants. -/
theorem adjStep_keeps_terminals (cl : Checklist) (a : Adjustment)
    (hsafe : SafeAdj cl a) (m : TaskMap) (now : Nat)
    (h1 : TerminalsPreserved cl m) (h2 : TerminalsFrom cl m) :
    TerminalsPreserved cl (applyAdjustment m a now) ∧
      TerminalsFrom cl (applyAdjustment m a now) := by
  cases a with
  | reorder tid np =>
      simp only [applyAdjustment]
      cases hg : mapGet m tid with
      | none => exact ⟨h1, h2⟩
      | some t =>
          simp only []
          constructor
          · intro id t0 hid hterm
            by_cases he : id = tid
            · subst he
              obtain ⟨t1, ht1, hs1⟩ := h1 id t0 hid hterm
              rw [hg] at ht1
              obtain rfl := Option.some.inj ht1
              exact ⟨{ t with priority := np }, by rw [mapGet_mapSet_self], hs1⟩
            · obtain ⟨t1, ht1, hs1⟩ := h1 id t0 hid hterm
              exact ⟨t1, by rw [mapGet_mapSet_ne m tid _ id he]; exact ht1, hs1⟩
          · intro id t1 hid hterm
            by_cases he : id = tid
            · subst he
              rw [mapGet_mapSet_self] at hid
              have het : t1 = { t with priority := np } := (Option.some.inj hid).symm
              subst het
              exact h2 id t hg (by simpa using hterm)
            · rw [mapGet_mapSet_ne m tid _ id he] at hid
              exact h2 id t1 hid hterm
  | modify tid patch =>
      simp only [applyAdjustment]
      cases hg : mapGet m tid with
      | none => exact ⟨h1, h2⟩
      | some t =>
          simp only []
          have hstat : (applyPatch t patch).status = t.status := by
            have : patch.status = none := hsafe
            simp [applyPatch, this]
          constructor
          · intro id t0 hid hterm
            by_cases he : id = tid
            · subst he
              obtain ⟨t1, ht1, hs1⟩ := h1 id t0 hid hterm
              rw [hg] at ht1
              obtain rfl := Option.some.inj ht1
              exact ⟨applyPatch t patch, by rw [mapGet_mapSet_self],
                by rw [hstat, hs1]⟩
            · obtain ⟨t1, ht1, hs1⟩ := h1 id t0 hid hterm
              exact ⟨t1, by rw [mapGet_mapSet_ne m tid _ id he]; exact ht1, hs1⟩
          · intro id t1 hid hterm
            by_cases he : id = tid
            · subst he
              rw [mapGet_mapSet_self] at hid
              have het : t1 = applyPatch t patch := (Option.some.inj hid).symm
              subst het
              exact h2 id t hg (by rw [← hstat]; exact hterm)
            · rw [mapGet_mapSet_ne m tid _ id he] at hid
              exact h2 id t1 hid hterm
  | add spec =>
      simp only [applyAdjustment]
      have hnid : (mkTaskFromSpec spec now).id =
          strOr spec.id ("task_" ++ toString now) := rfl
      constructor
      · intro id t0 hid hterm
        have hne : id ≠ (mkTaskFromSpec spec now).id := by
          intro he
          refine hsafe now ⟨t0, ?_, hterm⟩
          show mapGet cl.tasks _ = some t0
          rw [← hnid, ← he]
          exact hid
        obtain ⟨t1, ht1, hs1⟩ := h1 id t0 hid hterm
        exact ⟨t1, by rw [mapGet_mapSet_ne m _ _ id hne]; exact ht1, hs1⟩
      · intro id t1 hid hterm
        by_cases he : id = (mkTaskFromSpec spec now).id
        · exfalso
          rw [he, mapGet_mapSet_self] at hid
          have het : t1 = mkTaskFromSpec spec now := (Option.some.inj hid).symm
          rw [het] at hterm
          simp [mkTaskFromSpec, Status.isTerminal] at hterm
        · rw [mapGet_mapSet_ne m _ _ id he] at hid
          exact h2 id t1 hid hterm
  | other => exact ⟨h1, h2⟩

/-- Folding a list of safe adjustments preserves the terminal-status
invariants. -/
theorem adjFold_keeps_terminals (cl : Checklist) :
    ∀ (adjustments : List Adjustment) (st : TaskMap × List Nat),
      (∀ a ∈ adjustments, SafeAdj cl a) →
      TerminalsPreserved cl st.1 → TerminalsFrom cl st.1 →
      TerminalsPreserved cl (adjustments.foldl adjStep st).1 ∧
        TerminalsFrom cl (adjustments.foldl adjStep st).1 := by
  intro adjustments
  induction adjustments with
  | nil => intro st _ h1 h2; exact ⟨h1, h2⟩
  | cons a rest ih =>
      intro st hsafe h1 h2
      have hsa := hsafe a (List.mem_cons_self a rest)
      have hrest : ∀ a2 ∈ rest, SafeAdj cl a2 :=
        fun a2 h => hsafe a2 (List.mem_cons_of_mem a h)
      have hstep : TerminalsPreserved cl (adjStep st a).1 ∧
          TerminalsFrom cl (adjStep st a).1 := by
        cases a with
        | reorder tid np => exact adjStep_keeps_terminals cl _ hsa st.1 0 h1 h2
        | modify tid patch => exact adjStep_keeps_terminals cl _ hsa st.1 0 h1 h2
        | add spec => exact adjStep_keeps_terminals cl _ hsa st.1 (st.2.headD 0) h1 h2
        | other => exact ⟨h1, h2⟩
      exact ih (adjStep st a) hrest hstep.1 hstep.2

/-- A status-transition step of the orchestrator run: marking an
available task, or recording a result for an in-progress task — exactly
how `achieveGoal` drives the checklist. -/
inductive ExecStep : Checklist → Checklist → Prop where
  | mark (cl : Checklist) (t : Task) (ht : t ∈ cl.getAvailableTasks) :
      ExecStep cl (cl.setTaskInProgress t.id)
  | record (cl : Checklist) (id : String) (r : TaskResult) (now : Nat) (t : Task)
      (ht : cl.getTask id = some t) (hs : t.status = Status.in_progress) :
      ExecStep cl (cl.updateTaskStatus id r now)

/-- A full run step: a status transition or a reflection applying safe
adjustments. -/
inductive RunStep : Checklist → Checklist → Prop where
  | exec (cl cl2 : Checklist) (h : ExecStep cl cl2) : RunStep cl cl2
  | adjust (cl : Checklist) (adjustments : List Adjustment) (nows : List Nat)
      (hsafe : ∀ a ∈ adjustments, SafeAdj cl a) :
      RunStep cl (cl.applyAdjustments adjustments nows)

/-- Reflexive-transitive closure of a step relation on checklists. -/
inductive Reach (r : Checklist → Checklist → Prop) : Checklist → Checklist → Prop where
  | refl (cl : Checklist) : Reach r cl cl
  | tail (cl cl2 cl3 : Checklist) (h : Reach r cl cl2) (hs : r cl2 cl3) :
      Reach r cl cl3

/-- Status-transition steps preserve well-formedness. -/
theorem wf_execStep (cl cl2 : Checklist) (h : ExecStep cl cl2) (hwf : cl.wf) :
    cl2.wf := by
  cases h with
  | mark t ht => exact wf_setTaskInProgress cl t.id hwf
  | record id r now t ht hs => exact wf_updateTaskStatus cl id r now hwf

/-- Run steps preserve well-formedness. -/
theorem wf_runStep (cl cl2 : Checklist) (h : RunStep cl cl2) (hwf : cl.wf) :
    cl2.wf := by
  cases h with
  | exec x hex => exact wf_execStep _ _ hex hwf
  | adjust adjustments nows hsafe => exact wf_applyAdjustments cl adjustments nows hwf

/-- Well-formedness is invariant along any preserving step relation. -/
theorem wf_reach {r : Checklist → Checklist → Prop}
    (hpres : ∀ a b, r a b → a.wf → b.wf) :
    ∀ {cl cl2 : Checklist}, Reach r cl cl2 → cl.wf → cl2.wf := by
  intro cl cl2 h
  induction h with
  | refl => exact id
  | tail x y hr hs ih => exact fun hwf => hpres _ _ hs (ih hwf)

/-- One run step never changes a terminal task's status. -/
theorem runStep_keeps_terminal (cl cl2 : Checklist) (hwf : cl.wf)
    (hstep : RunStep cl cl2) (id : String) (t : Task)
    (ht : cl.getTask id = some t) (hterm : t.status.isTerminal = true) :
    ∃ t2, cl2.getTask id = some t2 ∧ t2.status = t.status := by
  cases hstep with
  | exec x hex =>
      cases hex with
      | mark tm htm =>
          have hav := available_getTask cl tm hwf htm
          by_cases he : id = tm.id
          · exfalso
            rw [he, hav.1] at ht
            have := Option.some.inj ht
            rw [← this, hav.2.1] at hterm
            simp [Status.isTerminal] at hterm
          · exact ⟨t, by rw [getTask_setTaskInProgress_other cl tm.id id he]; exact ht, rfl⟩
      | record rid r now tr htr hsr =>
          by_cases he : id = rid
          · exfalso
            rw [he, htr] at ht
            have := Option.some.inj ht
            rw [← this, hsr] at hterm
            simp [Status.isTerminal] at hterm
          · exact ⟨t, by rw [getTask_updateTaskStatus_other cl rid r now id he]; exact ht, rfl⟩
  | adjust adjustments nows hsafe =>
      have hfold := adjFold_keeps_terminals cl adjustments (cl.tasks, nows) hsafe
        (fun id2 t0 h0 _ => ⟨t0, h0, rfl⟩)
        (fun id2 t1 h1 ht1 => ⟨t1, h1, ht1⟩)
      exact hfold.1 id t ht hterm

/- ### C1 — status monotonicity (corrected) -/

/-- A two-task checklist and a short run making task `a` terminal. -/
def clAB : Checklist :=
  Checklist.init [taskA, taskB] sampleGoal

/-- After marking and successfully recording task `a`. -/
def clAB2 : Checklist :=
  (clAB.setTaskInProgress "a").updateTaskStatus "a" sampleSuccess 3

/-- The completed form of task `a` in `clAB2`. -/
def taskADone : Task :=
  { taskA with
    status := Status.completed,
    result := some sampleSuccess,
    completedAt := some 3 }

/-- C1 counterexample: `setTaskInProgress` on a `completed` task moves it
back to `in_progress` — the source checks only that the id exists, not
the current status. -/
theorem status_monotonicity_counterexample :
    (clAB2.getTask "a").map Task.status = some Status.completed ∧
    ((clAB2.setTaskInProgress "a").getTask "a").map Task.status =
      some Status.in_progress := by
  exact ⟨by decide, by decide⟩

/-- C1 (amended): a terminal (`completed`/`failed`) status survives every
step the orchestrator run actually performs — marking only available
(pending) tasks, recording results only for in-progress tasks, and
reflection adjustments that keep clear of statuses (`modify` patches
without a `status` field, `add`s not reusing a terminal task's id).
Outside that discipline the claim fails: `setTaskInProgress`
unconditionally moves any existing task to `in_progress`, and a `modify`
patch or colliding `add` can overwrite a terminal status. -/
theorem status_monotonicity (cl cl2 : Checklist) (hwf : cl.wf)
    (h : Reach RunStep cl cl2) (id : String) (t : Task)
    (ht : cl.getTask id = some t) (hterm : t.status.isTerminal = true) :
    ∃ t2, cl2.getTask id = some t2 ∧ t2.status = t.status := by
  induction h with
  | refl => exact ⟨t, ht, rfl⟩
  | tail x y hreach hs ih =>
      obtain ⟨t2, ht2, hst2⟩ := ih
      have hwfb := wf_reach wf_runStep hreach hwf
      have hterm2 : t2.status.isTerminal = true := by rw [hst2]; exact hterm
      obtain ⟨t3, ht3, hst3⟩ := runStep_keeps_terminal _ _ hwfb hs id t2 ht2 hterm2
      exact ⟨t3, ht3, by rw [hst3, hst2]⟩

/-- C1 witness: after completing task `a`, marking the still-pending
task `b` (a legitimate run step) leaves `a` completed. -/
theorem status_monotonicity_witness :
    clAB2.wf ∧ clAB2.getTask "a" = some taskADone ∧
    taskADone.status.isTerminal = true ∧
    ∃ t2, (clAB2.setTaskInProgress "b").getTask "a" = some t2 ∧
      t2.status = taskADone.status :=
  ⟨by decide, by decide, by decide,
    status_monotonicity clAB2 (clAB2.setTaskInProgress "b") (by decide)
      (Reach.tail clAB2 clAB2 (clAB2.setTaskInProgress "b") (Reach.refl clAB2)
        (RunStep.exec clAB2 (clAB2.setTaskInProgress "b")
          (ExecStep.mark clAB2 taskB (by decide))))
      "a" taskADone (by decide) (by decide)⟩

/- ### C7 — dependency gating -/

/-- A successful lookup returns a stored value. -/
theorem mapGet_mem (m : TaskMap) (id : String) (t : Task)
    (h : mapGet m id = some t) : ∃ p ∈ m, p.2 = t := by
  unfold mapGet at h
  cases hfind : m.find? (fun p => p.1 == id) with
  | none => rw [hfind] at h; cases h
  | some q =>
      rw [hfind] at h
      exact ⟨q, List.mem_of_find?_eq_some hfind, Option.some.inj h⟩

/-- The dependency check, read back: every dependency id resolves to a
completed task. -/
theorem depsSatisfiedB_spec (cl : Checklist) (t : Task)
    (h : depsSatisfiedB cl t = true) :
    ∀ d ∈ depsOf t, ∃ dt, cl.getTask d = some dt ∧ dt.status = Status.completed := by
  intro d hd
  unfold depsSatisfiedB at h
  unfold depsOf at hd
  cases hdep : t.dependencies with
  | none => rw [hdep] at hd; cases hd
  | some ds =>
      rw [hdep] at h hd
      have hmem : d ∈ ds := by simpa using hd
      have hall := List.all_eq_true.mp h d hmem
      cases hg : mapGet cl.tasks d with
      | none => rw [hg] at hall; cases hall
      | some dt =>
          rw [hg] at hall
          exact ⟨dt, hg, eq_of_beq (by simpa using hall)⟩

/-- Converse direction of the dependency check. -/
theorem depsSatisfiedB_of_spec (cl : Checklist) (t : Task)
    (h : ∀ d ∈ depsOf t, ∃ dt, cl.getTask d = some dt ∧ dt.status = Status.completed) :
    depsSatisfiedB cl t = true := by
  unfold depsSatisfiedB
  cases hdep : t.dependencies with
  | none => rfl
  | some ds =>
      apply List.all_eq_true.mpr
      intro d hd
      obtain ⟨dt, hdt, hdts⟩ := h d (by unfold depsOf; rw [hdep]; simpa using hd)
      have hdt' : mapGet cl.tasks d = some dt := hdt
      rw [hdt']
      simp [hdts]

/-- Value-precise form of recording at a present key. -/
theorem getTask_updateTaskStatus_self_val (cl : Checklist) (tid : String) (t : Task)
    (h : cl.getTask tid = some t) (r : TaskResult) (now : Nat) :
    (cl.updateTaskStatus tid r now).getTask tid =
      some { t with
             status := (if r.success then Status.completed else Status.failed),
             result := some r,
             completedAt := some now } := by
  unfold Checklist.getTask at h
  unfold Checklist.updateTaskStatus Checklist.getTask
  rw [h]
  exact mapGet_mapSet_self cl.tasks tid _

/-- A status-transition step never changes a task's dependency list. -/
theorem execStep_keeps_deps (cl cl2 : Checklist) (h : ExecStep cl cl2) (id : String)
    (t : Task) (ht : cl.getTask id = some t) :
    ∃ t2, cl2.getTask id = some t2 ∧ depsOf t2 = depsOf t := by
  cases h with
  | mark tm htm =>
      by_cases he : id = tm.id
      · refine ⟨{ t with status := Status.in_progress }, ?_, rfl⟩
        rw [he]
        exact getTask_setTaskInProgress_self cl tm.id t (by rw [← he]; exact ht)
      · exact ⟨t, by rw [getTask_setTaskInProgress_other cl tm.id id he]; exact ht, rfl⟩
  | record rid r now tr htr hsr =>
      by_cases he : id = rid
      · refine ⟨{ t with
            status := (if r.success then Status.completed else Status.failed),
            result := some r,
            completedAt := some now }, ?_, rfl⟩
        rw [he]
        exact getTask_updateTaskStatus_self_val cl rid t (by rw [← he]; exact ht) r now
      · exact ⟨t, by rw [getTask_updateTaskStatus_other cl rid r now id he]; exact ht, rfl⟩

/-- A set of ids each of which (in the given checklist) depends on
another member: a dependency cycle or a family of cycles. -/
def CycSet (cl : Checklist) (C : List String) : Prop :=
  ∀ id ∈ C, ∃ t, cl.getTask id = some t ∧ ∃ d, d ∈ depsOf t ∧ d ∈ C

/-- No member of the cycle set has been completed or even started. -/
def NoCycProgress (cl : Checklist) (C : List String) : Prop :=
  ∀ id ∈ C, ∀ t, cl.getTask id = some t →
    t.status ≠ Status.completed ∧ t.status ≠ Status.in_progress

/-- One status-transition step preserves `NoCycProgress`: a cycle member
can never be marked (its dependency would have to be completed) nor
recorded (it is never in progress). -/
theorem execStep_keeps_noCycProgress (cl cl2 : Checklist) (C : List String)
    (hs : ExecStep cl cl2) (hwf : cl.wf) (hcyc : CycSet cl C)
    (hinv : NoCycProgress cl C) : NoCycProgress cl2 C := by
  cases hs with
  | mark tm htm =>
      have hav := available_getTask cl tm hwf htm
      have htmid : tm.id ∉ C := by
        intro hin
        obtain ⟨t', ht', d, hd, hdC⟩ := hcyc tm.id hin
        rw [hav.1] at ht'
        obtain rfl := Option.some.inj ht'
        obtain ⟨dt, hdt, hdts⟩ := depsSatisfiedB_spec cl tm hav.2.2 d hd
        exact (hinv d hdC dt hdt).1 hdts
      intro id hid t2 ht2
      have hne : id ≠ tm.id := fun he => htmid (he ▸ hid)
      rw [getTask_setTaskInProgress_other cl tm.id id hne] at ht2
      exact hinv id hid t2 ht2
  | record rid r now tr htr hsr =>
      have hridC : rid ∉ C := by
        intro hin
        exact (hinv rid hin tr htr).2 hsr
      intro id hid t2 ht2
      have hne : id ≠ rid := fun he => hridC (he ▸ hid)
      rw [getTask_updateTaskStatus_other cl rid r now id hne] at ht2
      exact hinv id hid t2 ht2

/-- Along any status-transition run, well-formedness, the cycle shape
and the no-progress invariant all persist. -/
theorem execReach_cycle_invariant (cl cl2 : Checklist) (C : List String)
    (hreach : Reach ExecStep cl cl2) (hwf : cl.wf) (hcyc : CycSet cl C)
    (hinv : NoCycProgress cl C) :
    cl2.wf ∧ CycSet cl2 C ∧ NoCycProgress cl2 C := by
  induction hreach with
  | refl => exact ⟨hwf, hcyc, hinv⟩
  | tail x y hr hs ih =>
      obtain ⟨hwf2, hcyc2, hinv2⟩ := ih
      refine ⟨wf_execStep _ _ hs hwf2, ?_, ?_⟩
      · intro id hid
        obtain ⟨t, ht, d, hd, hdC⟩ := hcyc2 id hid
        obtain ⟨t2, ht2, hdeps⟩ := execStep_keeps_deps _ _ hs id t ht
        exact ⟨t2, ht2, d, by rw [hdeps]; exact hd, hdC⟩
      · exact execStep_keeps_noCycProgress _ _ C hs hwf2 hcyc2 hinv2

/-- C7: `getAvailableTasks` returns exactly the stored tasks that are
`pending` and whose every dependency id resolves to an existing
`completed` task; a task with a missing dependency never appears; and
along any run of marking and recording from a freshly constructed
checklist, no member of a dependency cycle ever appears. -/
theorem dependency_gating :
    (∀ (cl : Checklist) (t : Task),
        t ∈ cl.getAvailableTasks ↔
          ((∃ p ∈ cl.tasks, p.2 = t) ∧ t.status = Status.pending ∧
            ∀ d ∈ depsOf t, ∃ dt, cl.getTask d = some dt ∧
              dt.status = Status.completed)) ∧
    (∀ (cl : Checklist) (t : Task) (d : String),
        d ∈ depsOf t → cl.getTask d = none → t ∉ cl.getAvailableTasks) ∧
    (∀ (tasks : List Task) (gd : GoalDefinition) (cl2 : Checklist) (C : List String),
        Reach ExecStep (Checklist.init tasks gd) cl2 →
        CycSet (Checklist.init tasks gd) C →
        ∀ t ∈ cl2.getAvailableTasks, t.id ∉ C) := by
  have hchar : ∀ (cl : Checklist) (t : Task),
      t ∈ cl.getAvailableTasks ↔
        ((∃ p ∈ cl.tasks, p.2 = t) ∧ t.status = Status.pending ∧
          ∀ d ∈ depsOf t, ∃ dt, cl.getTask d = some dt ∧
            dt.status = Status.completed) := by
    intro cl t
    constructor
    · intro ht
      have hmem := List.mem_of_mem_filter ht
      have hpred := List.of_mem_filter ht
      obtain ⟨p, hp, he⟩ := List.mem_map.mp hmem
      have hand := (Bool.and_eq_true _ _).mp hpred
      exact ⟨⟨p, hp, he⟩, eq_of_beq hand.1, depsSatisfiedB_spec cl t hand.2⟩
    · rintro ⟨⟨p, hp, he⟩, hst, hdeps⟩
      unfold Checklist.getAvailableTasks
      refine List.mem_filter.mpr ⟨List.mem_map.mpr ⟨p, hp, he⟩, ?_⟩
      rw [Bool.and_eq_true]
      exact ⟨by simp [hst], depsSatisfiedB_of_spec cl t hdeps⟩
  refine ⟨hchar, ?_, ?_⟩
  · intro cl t d hd hnone havail
    obtain ⟨dt, hdt, _⟩ := ((hchar cl t).mp havail).2.2 d hd
    rw [hnone] at hdt
    cases hdt
  · intro tasks gd cl2 C hreach hcyc t ht hin
    have hinv0 : NoCycProgress (Checklist.init tasks gd) C := by
      intro id _ t0 ht0
      obtain ⟨p, hp, he⟩ := mapGet_mem _ id t0 ht0
      have := init_status_pending tasks gd p hp
      rw [he] at this
      rw [this]
      exact ⟨by simp, by simp⟩
    obtain ⟨hwf2, hcyc2, hinv2⟩ := execReach_cycle_invariant _ cl2 C hreach
      (wf_init tasks gd) hcyc hinv0
    have hav := available_getTask cl2 t hwf2 ht
    obtain ⟨t', ht', d, hd, hdC⟩ := hcyc2 t.id hin
    rw [hav.1] at ht'
    obtain rfl := Option.some.inj ht'
    obtain ⟨dt, hdt, hdts⟩ := depsSatisfiedB_spec cl2 t hav.2.2 d hd
    exact (hinv2 d hdC dt hdt).1 hdts

/- ### C7 witness data -/

/-- Task `d`, depending on `e`. -/
def taskD : Task :=
  { taskA with id := "d", name := "D", dependencies := some ["e"] }

/-- Task `e`, depending on `d`: a two-cycle with `taskD`. -/
def taskE : Task :=
  { taskA with id := "e", name := "E", dependencies := some ["d"] }

/-- A checklist whose two tasks form a dependency cycle. -/
def clDE : Checklist :=
  Checklist.init [taskD, taskE] sampleGoal

/-- C7 witness: the cyclic pair `{d, e}` never becomes available, here
checked at the initial state of the run. -/
theorem dependency_gating_witness :
    CycSet clDE ["d", "e"] ∧
    ∀ t ∈ clDE.getAvailableTasks, t.id ∉ (["d", "e"] : List String) :=
  have hcyc : CycSet clDE ["d", "e"] := by
    intro id hid
    simp only [List.mem_cons, List.not_mem_nil, or_false] at hid
    rcases hid with rfl | rfl
    · exact ⟨taskD, by decide, "e", by decide, by decide⟩
    · exact ⟨taskE, by decide, "d", by decide, by decide⟩
  ⟨hcyc,
    dependency_gating.2.2 [taskD, taskE] sampleGoal clDE ["d", "e"]
      (Reach.refl clDE) hcyc⟩

end AgentFlow
